import Mathlib

/-!
Verification of the GithubManager storage core: a shallow embedding of the
C sources (date packing, binary searches, friend computation, the block
cache, the indexer sort/group/lower-bound machinery, the query-solver
sorting, and the binary record writer) together with proofs and
refutations of the specification claims C1 to C10.

Machine integers are modelled as `Nat` (the C values in play are
non-negative and far from overflow unless noted); files are modelled as
byte maps `Nat → Nat`; the fallible or crashing paths return `Option`.
-/

set_option maxHeartbeats 1600000

namespace GithubManager

/-! Section: bit-level helpers shared by the date packing proofs.

The C code packs fields with `<<` and `|` and unpacks with `>>` and `&`;
the following lemma lets the disjoint `|` be read as `+`. -/

theorem shiftLeft_lor_eq_add : ∀ (n a b : Nat), b < 2 ^ n →
    (a <<< n) ||| b = a * 2 ^ n + b := by
  intro n
  induction n with
  | zero =>
      intro a b hb
      have hb0 : b = 0 := by omega
      subst hb0
      simp [Nat.shiftLeft_eq]
  | succ n ih =>
      intro a b hb
      have hb2 : b / 2 < 2 ^ n := by
        have h2 : 2 ^ (n + 1) = 2 ^ n * 2 := by ring
        omega
      have hdec : Nat.bit b.bodd b.div2 = b := Nat.bit_decomp b
      have hshift : a <<< (n + 1) = Nat.bit false (a <<< n) := by
        rw [Nat.shiftLeft_succ, Nat.bit_val]
        simp
      have hih : (a <<< n) ||| b.div2 = a * 2 ^ n + b / 2 := by
        rw [Nat.div2_val]; exact ih a (b / 2) hb2
      have hmod : b.bodd.toNat = b % 2 := by
        cases hB : b.bodd
        · simp [Nat.mod_two_of_bodd, hB]
        · simp [Nat.mod_two_of_bodd, hB]
      calc (a <<< (n + 1)) ||| b
        _ = Nat.bit false (a <<< n) ||| Nat.bit b.bodd b.div2 := by rw [hshift, hdec]
        _ = Nat.bit (false || b.bodd) ((a <<< n) ||| b.div2) := Nat.lor_bit _ _ _ _
        _ = Nat.bit b.bodd (a * 2 ^ n + b / 2) := by rw [Bool.false_or, hih]
        _ = a * 2 ^ (n + 1) + b := by
            rw [Nat.bit_val, hmod]
            have h3 : a * 2 ^ (n + 1) = 2 * (a * 2 ^ n) := by ring
            omega

/-! Section: Date packing (src/src/types/date.c).

The struct date fields are C ints; all values in play are non-negative,
so they are embedded as `Nat`. -/

structure DateR where
  year : Nat
  month : Nat
  day : Nat
  hour : Nat
  minute : Nat
  second : Nat
deriving DecidableEq, Repr

/-- Model of `getCompactedDate` (date.c lines 480-494): the six fields are
shifted to bit positions 26, 22, 17, 12, 6, 0 and joined with `|`. -/
def getCompactedDate (d : DateR) : Nat :=
  ((d.year - 2005) <<< 26) ||| (d.month <<< 22) ||| (d.day <<< 17) |||
    (d.hour <<< 12) ||| (d.minute <<< 6) ||| d.second

/-- Model of `getUncompactedDate` (date.c lines 502-525): each field is
shifted down and masked. -/
def getUncompactedDate (c : Nat) : DateR :=
  { second := c &&& 63
    minute := (c >>> 6) &&& 63
    hour := (c >>> 12) &&& 31
    day := (c >>> 17) &&& 31
    month := (c >>> 22) &&& 15
    year := 2005 + ((c >>> 26) &&& 63) }

/-- Arithmetic form of the packed word, for in-range fields. -/
theorem getCompactedDate_eq_arith (d : DateR)
    (hmo : d.month < 16) (hd : d.day < 32) (hh : d.hour < 32)
    (hmi : d.minute < 64) (hs : d.second < 64) :
    getCompactedDate d =
      (d.year - 2005) * 2 ^ 26 + d.month * 2 ^ 22 + d.day * 2 ^ 17 +
        d.hour * 2 ^ 12 + d.minute * 2 ^ 6 + d.second := by
  unfold getCompactedDate
  have h0 : (d.minute <<< 6) ||| d.second = d.minute * 2 ^ 6 + d.second :=
    shiftLeft_lor_eq_add 6 d.minute d.second (by omega)
  have b0 : d.minute * 2 ^ 6 + d.second < 2 ^ 12 := by omega
  have h1 : (d.hour <<< 12) ||| (d.minute * 2 ^ 6 + d.second) =
      d.hour * 2 ^ 12 + (d.minute * 2 ^ 6 + d.second) :=
    shiftLeft_lor_eq_add 12 d.hour _ b0
  have b1 : d.hour * 2 ^ 12 + (d.minute * 2 ^ 6 + d.second) < 2 ^ 17 := by omega
  have h2 : (d.day <<< 17) ||| (d.hour * 2 ^ 12 + (d.minute * 2 ^ 6 + d.second)) =
      d.day * 2 ^ 17 + (d.hour * 2 ^ 12 + (d.minute * 2 ^ 6 + d.second)) :=
    shiftLeft_lor_eq_add 17 d.day _ b1
  have b2 : d.day * 2 ^ 17 + (d.hour * 2 ^ 12 + (d.minute * 2 ^ 6 + d.second)) < 2 ^ 22 := by
    omega
  have h3 : (d.month <<< 22) |||
        (d.day * 2 ^ 17 + (d.hour * 2 ^ 12 + (d.minute * 2 ^ 6 + d.second))) =
      d.month * 2 ^ 22 + (d.day * 2 ^ 17 + (d.hour * 2 ^ 12 + (d.minute * 2 ^ 6 + d.second))) :=
    shiftLeft_lor_eq_add 22 d.month _ b2
  have b3 : d.month * 2 ^ 22 +
      (d.day * 2 ^ 17 + (d.hour * 2 ^ 12 + (d.minute * 2 ^ 6 + d.second))) < 2 ^ 26 := by
    omega
  have h4 : ((d.year - 2005) <<< 26) |||
        (d.month * 2 ^ 22 + (d.day * 2 ^ 17 + (d.hour * 2 ^ 12 + (d.minute * 2 ^ 6 + d.second)))) =
      (d.year - 2005) * 2 ^ 26 +
        (d.month * 2 ^ 22 + (d.day * 2 ^ 17 + (d.hour * 2 ^ 12 + (d.minute * 2 ^ 6 + d.second)))) :=
    shiftLeft_lor_eq_add 26 (d.year - 2005) _ b3
  rw [Nat.lor_assoc, Nat.lor_assoc, Nat.lor_assoc, Nat.lor_assoc]
  rw [h0, h1, h2, h3, h4]
  ring

theorem and_63_eq_mod (x : Nat) : x &&& 63 = x % 2 ^ 6 := by
  have h : (63 : Nat) = 2 ^ 6 - 1 := by norm_num
  rw [h, Nat.and_pow_two_sub_one_eq_mod]

theorem and_31_eq_mod (x : Nat) : x &&& 31 = x % 2 ^ 5 := by
  have h : (31 : Nat) = 2 ^ 5 - 1 := by norm_num
  rw [h, Nat.and_pow_two_sub_one_eq_mod]

theorem and_15_eq_mod (x : Nat) : x &&& 15 = x % 2 ^ 4 := by
  have h : (15 : Nat) = 2 ^ 4 - 1 := by norm_num
  rw [h, Nat.and_pow_two_sub_one_eq_mod]

/-- Claim C8: for every Date in the valid range [2005-04-07, now]
(year between 2005 and the current year, month 1..12, day 1..31,
hour 0..23, minute and second 0..59), unpacking the packed 32-bit form
returns the original date: getUncompactedDate (getCompactedDate T) = T,
with the layout (year-2005:6 bits, month:4, day:5, hour:5, minute:6,
second:6). -/
theorem C8_date_pack_roundtrip (d : DateR)
    (hy1 : 2005 ≤ d.year) (hy2 : d.year ≤ 2026)
    (hmo1 : 1 ≤ d.month) (hmo2 : d.month ≤ 12)
    (hd1 : 1 ≤ d.day) (hd2 : d.day ≤ 31)
    (hh : d.hour ≤ 23) (hmi : d.minute ≤ 59) (hs : d.second ≤ 59) :
    getUncompactedDate (getCompactedDate d) = d := by
  have harith := getCompactedDate_eq_arith d (by omega) (by omega) (by omega)
    (by omega) (by omega)
  obtain ⟨y, mo, dd, h, mi, s⟩ := d
  simp only at harith hy1 hy2 hmo1 hmo2 hd1 hd2 hh hmi hs
  simp only [getUncompactedDate, harith, Nat.shiftRight_eq_div_pow,
    and_63_eq_mod, and_31_eq_mod, and_15_eq_mod, DateR.mk.injEq]
  norm_num
  omega

/-- Witness for C8 at the concrete date 2015-06-01 12:30:45. -/
theorem C8_date_pack_roundtrip_witness :
    getUncompactedDate (getCompactedDate ⟨2015, 6, 1, 12, 30, 45⟩) =
      ⟨2015, 6, 1, 12, 30, 45⟩ :=
  C8_date_pack_roundtrip ⟨2015, 6, 1, 12, 30, 45⟩ (by decide) (by decide)
    (by decide) (by decide) (by decide) (by decide) (by decide) (by decide)
    (by decide)

/-! Section: binary searches (src/src/utils/utils.c).

C ints are embedded as `Int`; the C division `/ 2` truncates towards
zero, which `tdiv2` reproduces. Both search loops are given explicit
fuel: a result of `none` means the fuel ran out or an index outside
[0, length) was dereferenced, `some b` means the loop exited normally
with result b having accessed only in-bounds indices. -/

/-- Truncating (C-style) division by two, written with Euclidean
division so that omega can reason about it. -/
def tdiv2 (x : Int) : Int := if 0 ≤ x then x / 2 else -((-x) / 2)

theorem tdiv2_bounds (l r : Int) (h : l ≤ r) :
    l ≤ tdiv2 (l + r) ∧ tdiv2 (l + r) ≤ r := by
  unfold tdiv2
  split <;> omega

/-- Model of the loop of containedInSortedArray (utils.c lines 397-411):
m is recomputed at each test, the element at m is compared with val, and
the window [l, r] shrinks; the loop exits with false once l > r. -/
def containedAux (a : List Int) (val : Int) : Nat → Int → Int → Option Bool
  | 0, _, _ => none
  | fuel+1, l, r =>
    let m := tdiv2 (l + r)
    if l ≤ r then
      if _hin : 0 ≤ m ∧ m.toNat < a.length then
        let x := a.getD m.toNat 0
        if x < val then containedAux a val fuel (m + 1) r
        else if val < x then containedAux a val fuel l (m - 1)
        else some true
      else none
    else some false

/-- Model of containedInSortedArray; the window shrinks by at least one
entry per iteration, so fuel len + 1 covers every run. -/
def containedInSortedArray (a : List Int) (len : Nat) (val : Int) : Option Bool :=
  containedAux a val (len + 1) 0 ((len : Int) - 1)

theorem containedAux_correct (a : List Int) (val : Int)
    (hs : List.Pairwise (· ≤ ·) a) :
    ∀ fuel (l r : Int), 0 ≤ l → r < (a.length : Int) →
    (r + 1 - l).toNat < fuel →
    (∀ i : Nat, (i : Int) < l → i < a.length → a.getD i 0 < val) →
    (∀ i : Nat, r < (i : Int) → i < a.length → val < a.getD i 0) →
    containedAux a val fuel l r = some (decide (val ∈ a)) := by
  intro fuel
  induction fuel with
  | zero => intro l r _ _ hf _ _; omega
  | succ fuel ih =>
      intro l r hl hr hf hinvL hinvR
      by_cases hlr : l ≤ r
      · have hm := tdiv2_bounds l r hlr
        have hmb : 0 ≤ tdiv2 (l + r) ∧ (tdiv2 (l + r)).toNat < a.length := by
          constructor
          · omega
          · omega
        rw [containedAux]
        simp only [hlr, if_true, hmb, dif_pos]
        set m := tdiv2 (l + r) with hmdef
        have hmn : ((m.toNat : Int)) = m := by omega
        by_cases hlt : a.getD m.toNat 0 < val
        · simp only [hlt, if_pos]
          apply ih (m + 1) r (by omega) hr (by omega)
          · intro i hi hilen
            rcases lt_or_ge (i : Int) l with h1 | h1
            · exact hinvL i h1 hilen
            · by_cases him : i = m.toNat
              · rw [him]; exact hlt
              · have hile : i < m.toNat := by omega
                have := (List.pairwise_iff_getElem.mp hs) i m.toNat hilen hmb.2 hile
                rw [List.getD_eq_getElem a 0 hilen]
                rw [List.getD_eq_getElem a 0 hmb.2] at hlt
                omega
          · exact hinvR
        · simp only [hlt, if_neg, if_false]
          by_cases hgt : val < a.getD m.toNat 0
          · simp only [hgt, if_pos]
            apply ih l (m - 1) hl (by omega) (by omega) hinvL
            intro i hi hilen
            rcases lt_or_ge (r : Int) i with h1 | h1
            · exact hinvR i h1 hilen
            · by_cases him : i = m.toNat
              · rw [him]; exact hgt
              · have hile : m.toNat < i := by omega
                have := (List.pairwise_iff_getElem.mp hs) m.toNat i hmb.2 hilen hile
                rw [List.getD_eq_getElem a 0 hilen]
                rw [List.getD_eq_getElem a 0 hmb.2] at hgt
                omega
          · simp only [hgt, if_neg, if_false]
            have heq : a.getD m.toNat 0 = val := by omega
            have hmem : val ∈ a := by
              rw [← heq, List.getD_eq_getElem a 0 hmb.2]
              exact List.getElem_mem hmb.2
            simp [hmem]
      · rw [containedAux]
        simp only [hlr, if_false, if_neg]
        have hnmem : val ∉ a := by
          intro hmem
          rcases List.mem_iff_getElem.mp hmem with ⟨i, hilen, hie⟩
          rcases lt_or_ge (i : Int) l with h1 | h1
          · have := hinvL i h1 hilen
            rw [List.getD_eq_getElem a 0 hilen] at this
            omega
          · have := hinvR i (by omega) hilen
            rw [List.getD_eq_getElem a 0 hilen] at this
            omega
        simp [hnmem]

/-- The full contract of containedInSortedArray on a sorted array: the
loop terminates within length + 1 iterations, accesses only in-bounds
indices, and decides membership. -/
theorem containedInSortedArray_correct (a : List Int) (val : Int)
    (hs : List.Pairwise (· ≤ ·) a) :
    containedInSortedArray a a.length val = some (decide (val ∈ a)) := by
  apply containedAux_correct a val hs (a.length + 1) 0 ((a.length : Int) - 1)
    (by omega) (by omega) (by omega)
  · intro i hi _; omega
  · intro i hi hilen; omega

/-- Model of binSearchInList's loop (utils.c lines 660-673): the element
at p is compared first, the loop exits only on equality, and m, n, p are
updated exactly as in the C body. -/
def binSearchAux (a : List Int) (key : Int) : Nat → Int → Int → Int → Option Bool
  | 0, _, _, _ => none
  | fuel+1, m, n, p =>
    if _hp : 0 ≤ p ∧ p.toNat < a.length then
      if a.getD p.toNat 0 = key then some (decide (key = a.getD p.toNat 0))
      else
        let m' := if key < a.getD p.toNat 0 then m else p + 1
        let n' := if key < a.getD p.toNat 0 then p - 1 else n
        binSearchAux a key fuel m' n' (tdiv2 (m' + n'))
    else none

/-- Model of binSearchInList (utils.c lines 660-673) with explicit fuel. -/
def binSearchInList (key : Int) (a : List Int) (N : Nat) (fuel : Nat) : Option Bool :=
  binSearchAux a key fuel 0 ((N : Int) - 1) (tdiv2 (0 + ((N : Int) - 1)))

theorem binSearchAux_spin : ∀ fuel, binSearchAux [5] 7 fuel 1 0 0 = none := by
  intro fuel
  induction fuel with
  | zero => rfl
  | succ fuel ih =>
      rw [binSearchAux]
      norm_num [tdiv2]
      exact ih

/-- Claim C10: refuted for binSearchInList. Searching for the absent key
7 in the sorted one-element array [5] never terminates: the loop state
reaches (m, n, p) = (1, 0, 0) and repeats it forever, so no amount of
fuel makes the model return. (containedInSortedArray, by contrast,
satisfies the claimed contract: see containedInSortedArray_correct.) -/
theorem C10_binSearchInList_diverges : ∀ fuel, binSearchInList 7 [5] 1 fuel = none := by
  intro fuel
  cases fuel with
  | zero => rfl
  | succ fuel =>
      rw [binSearchInList, binSearchAux]
      norm_num [tdiv2]
      exact binSearchAux_spin fuel

/-! Section: user friends (src/src/types/user.c lines 460-513). -/

structure UserR where
  followers : Nat
  follower_list : List Int
  following : Nat
  following_list : List Int
  friends : Nat
  friends_list : List Int
deriving Repr, DecidableEq

def intLe (a b : Int) : Bool := decide (a ≤ b)

/-- Model of qsort with compareInts (ascending ints); qsort promises a
permutation sorted by the comparator, modelled by a merge sort. -/
def sortInts (l : List Int) : List Int := l.mergeSort intLe

/-- The C call containedInSortedArray(a, len, v) used as a plain Bool;
on sorted input the Option is always some (containedInSortedArray_correct). -/
def containedB (a : List Int) (len : Nat) (v : Int) : Bool :=
  (containedInSortedArray a len v).getD false

/-- Model of calculateFriends (user.c lines 471-497): the shorter of the
two lists is sorted, and the longer list is filtered by binary-searched
membership in the shorter one, in its original order. -/
def calculateFriends (u : UserR) : UserR :=
  if u.followers = 0 ∨ u.following = 0 then
    { u with friends := 0, friends_list := [] }
  else
    let small := if u.followers < u.following then u.follower_list else u.following_list
    let small_l := min u.followers u.following
    let big := if u.followers < u.following then u.following_list else u.follower_list
    let sorted_small := sortInts small
    let ans := big.filter (fun x => containedB sorted_small small_l x)
    { u with friends := ans.length, friends_list := ans }

/-- Model of areUsersFriends (user.c lines 511-513). -/
def areUsersFriends (u : UserR) (v : Int) : Bool :=
  containedB u.friends_list u.friends v

theorem sortInts_sorted (l : List Int) : List.Pairwise (· ≤ ·) (sortInts l) := by
  have h : List.Sorted (fun a b => intLe a b) (List.mergeSort l intLe) :=
    List.sorted_mergeSort
      (fun a b c hab hbc => by simp [intLe] at *; omega)
      (fun a b => by simp [intLe]; omega) l
  refine h.imp ?_
  intro a b hab
  simpa [intLe] using hab

theorem sortInts_mem (l : List Int) (v : Int) : v ∈ sortInts l ↔ v ∈ l :=
  (List.mergeSort_perm l intLe).mem_iff

theorem sortInts_length (l : List Int) : (sortInts l).length = l.length :=
  (List.mergeSort_perm l intLe).length_eq

theorem containedB_sorted (a : List Int) (v : Int) (hs : List.Pairwise (· ≤ ·) a) :
    containedB a a.length v = decide (v ∈ a) := by
  unfold containedB
  rw [containedInSortedArray_correct a v hs]
  rfl

/-- Claim C4: for every user whose follower and following lists have
been read (and are sorted ascending sets, as the data model requires,
with the stored counts equal to the list lengths), after
calculateFriends the friends list is exactly the intersection of the
two lists, is sorted strictly ascending, and areUsersFriends decides
membership in it. -/
theorem C4_calculateFriends_correct (u : UserR)
    (h1 : List.Pairwise (· < ·) u.follower_list)
    (h2 : List.Pairwise (· < ·) u.following_list)
    (hl1 : u.followers = u.follower_list.length)
    (hl2 : u.following = u.following_list.length) :
    (∀ v : Int, v ∈ (calculateFriends u).friends_list ↔
      (v ∈ u.follower_list ∧ v ∈ u.following_list)) ∧
    List.Pairwise (· < ·) (calculateFriends u).friends_list ∧
    (∀ v : Int, areUsersFriends (calculateFriends u) v = true ↔
      v ∈ (calculateFriends u).friends_list) := by
  by_cases h0 : u.followers = 0 ∨ u.following = 0
  · rw [calculateFriends]
    simp only [h0, if_true]
    refine ⟨?_, ?_, ?_⟩
    · intro v
      simp only [List.not_mem_nil, false_iff]
      rcases h0 with h | h
      · have : u.follower_list = [] := by
          rw [← List.length_eq_zero]; omega
        rw [this]; simp
      · have : u.following_list = [] := by
          rw [← List.length_eq_zero]; omega
        rw [this]; simp
    · simp
    · intro v
      simp only [areUsersFriends, containedB, containedInSortedArray]
      rw [containedAux]
      norm_num
  · rw [calculateFriends]
    simp only [h0, if_false]
    push_neg at h0
    set small := if u.followers < u.following then u.follower_list else u.following_list
      with hsmall
    set big := if u.followers < u.following then u.following_list else u.follower_list
      with hbig
    have hsmall_sorted : List.Pairwise (· < ·) small := by
      rw [hsmall]; split <;> assumption
    have hbig_sorted : List.Pairwise (· < ·) big := by
      rw [hbig]; split <;> assumption
    have hsl : min u.followers u.following = small.length := by
      rw [hsmall]; split <;> omega
    have hmemsb : ∀ v : Int, (v ∈ small ∧ v ∈ big) ↔
        (v ∈ u.follower_list ∧ v ∈ u.following_list) := by
      intro v
      rw [hsmall, hbig]
      split <;> tauto
    have hcB : ∀ v : Int, containedB (sortInts small) (min u.followers u.following) v =
        decide (v ∈ small) := by
      intro v
      have h := containedB_sorted (sortInts small) v (sortInts_sorted small)
      rw [sortInts_length] at h
      rw [hsl, h]
      simp [sortInts_mem]
    have hfilter : big.filter (fun x => containedB (sortInts small)
        (min u.followers u.following) x) = big.filter (fun x => decide (x ∈ small)) := by
      apply List.filter_congr
      intro x _
      exact hcB x
    refine ⟨?_, ?_, ?_⟩
    · intro v
      simp only [hfilter, List.mem_filter, decide_eq_true_eq]
      rw [← hmemsb v]
      tauto
    · simp only [hfilter]
      exact List.Pairwise.sublist (List.filter_sublist big) hbig_sorted
    · intro v
      simp only [areUsersFriends, hfilter]
      have hans_sorted : List.Pairwise (· < ·)
          (big.filter (fun x => decide (x ∈ small))) :=
        List.Pairwise.sublist (List.filter_sublist big) hbig_sorted
      have := containedB_sorted (big.filter (fun x => decide (x ∈ small))) v
        (hans_sorted.imp (fun hab => le_of_lt hab))
      simp only [this]
      simp

/-- Witness for C4 at a concrete user: followers [1, 2, 5] and
following [2, 3, 5] give friends [2, 5], and areUsersFriends agrees. -/
theorem C4_calculateFriends_correct_witness :
    areUsersFriends (calculateFriends ⟨3, [1, 2, 5], 3, [2, 3, 5], 0, []⟩) 2 = true ↔
      (2 : Int) ∈ (calculateFriends ⟨3, [1, 2, 5], 3, [2, 3, 5], 0, []⟩).friends_list :=
  (C4_calculateFriends_correct ⟨3, [1, 2, 5], 3, [2, 3, 5], 0, []⟩
    (by decide) (by decide) (by decide) (by decide)).2.2 2

/-! Section: query-solver Top-N ordering (src/src/utils/querySolver.c
lines 19-67). The hash table's iteration order is abstracted as the
input list of (key, value) pairs; g_array_sort is documented by GLib as
a stable sort driven by a qsort-style comparator, modelled here by a
stable insertion sort over the relation comparePair p1 p2 <= 0. -/

structure KVPair where
  key : Int
  value : Int
deriving Repr, DecidableEq

/-- Model of comparePair (querySolver.c lines 49-53): it returns the
boolean p1.value < p2.value (1 or 0), never a negative number, and never
looks at the keys. -/
def comparePair (p1 p2 : KVPair) : Int :=
  if p1.value < p2.value then 1 else 0

def comparePairLe (p1 p2 : KVPair) : Prop := comparePair p1 p2 ≤ 0

instance : DecidableRel comparePairLe := fun p1 p2 => by
  unfold comparePairLe comparePair
  infer_instance

/-- Model of getHashTableOrganizedyValues (querySolver.c lines 62-67):
the pairs are collected in hash-iteration order and stably sorted with
comparePair. -/
def getHashTableOrganizedyValues (pairs : List KVPair) : List KVPair :=
  pairs.insertionSort comparePairLe

/-- Model of the output loop shared by queries 5, 6, 9 and 10: the first
min(N, c) pairs of the organized array are printed in order. -/
def topNOutput (pairs : List KVPair) (N : Nat) : List KVPair :=
  (getHashTableOrganizedyValues pairs).take N

/-- Claim C9, counterexample: with hash iteration order
[(uid 5, count 2), (uid 3, count 2)] the two users have equal counts but
are output as 5 then 3, in decreasing id order, because comparePair
never inspects the ids and the stable sort keeps iteration order. -/
theorem C9_tie_not_by_increasing_id :
    topNOutput [⟨5, 2⟩, ⟨3, 2⟩] 10 = [⟨5, 2⟩, ⟨3, 2⟩] ∧
      (topNOutput [⟨5, 2⟩, ⟨3, 2⟩] 10).map KVPair.key = [5, 3] := by
  constructor <;> rfl

/-- Claim C9, amended: for every hash iteration order and every N, the
Top-N output is in decreasing order of count; ties keep the
hash-iteration order (stable sort), not necessarily increasing user id. -/
theorem comparePairLe_iff (a b : KVPair) : comparePairLe a b ↔ b.value ≤ a.value := by
  unfold comparePairLe comparePair
  by_cases h : a.value < b.value
  · rw [if_pos h]; omega
  · rw [if_neg h]; omega

theorem C9_topN_decreasing_counts (pairs : List KVPair) (N : Nat) :
    List.Pairwise (fun a b : KVPair => b.value ≤ a.value) (topNOutput pairs N) := by
  haveI htot : IsTotal KVPair comparePairLe := ⟨by
    intro a b
    rw [comparePairLe_iff, comparePairLe_iff]
    omega⟩
  haveI htrans : IsTrans KVPair comparePairLe := ⟨by
    intro a b c hab hbc
    rw [comparePairLe_iff] at *
    omega⟩
  have hs : List.Sorted comparePairLe (getHashTableOrganizedyValues pairs) :=
    List.sorted_insertionSort comparePairLe pairs
  have hs' : List.Pairwise (fun a b : KVPair => b.value ≤ a.value)
      (getHashTableOrganizedyValues pairs) := by
    refine hs.imp ?_
    intro a b hab
    exact (comparePairLe_iff a b).mp hab
  exact List.Pairwise.sublist (List.take_sublist N _) hs'

/-! Section: binary record writing (src/src/types/format.c lines
200-226 and src/src/utils/utils.c lines 592-614).

Bytes are Nats below 256; C ints in play are non-negative. The member
value seen through the src pointer is a CVal; writeBinaryMember fills
the destination buffer whose previous contents are dest. -/

inductive FormatType
  | BOOL | TYPE | INT | STRING | STRING_NULL | INTLIST | DATE | DATE_TIME
  | BINARY_BOOL | BINARY_TYPE | BINARY_INT | BINARY_DOUBLE
  | BINARY_INTLIST | BINARY_DATE_TIME
deriving Repr, DecidableEq

inductive CVal
  | vbool (b : Bool)
  | vtype (t : Nat)
  | vint (n : Nat)
  | vstr (s : Option (List Nat))
  | vintlist (l : List Nat)
  | vdate (d : DateR)
  | vdouble (raw : List Nat)
deriving Repr, DecidableEq

/-- Model of writeIntToBinaryString (utils.c lines 592-597): big-endian
bytes of a 32-bit value. -/
def writeIntToBinaryString (n : Nat) : List Nat :=
  [n / 2 ^ 24 % 256, n / 2 ^ 16 % 256, n / 2 ^ 8 % 256, n % 256]

/-- The native (little-endian, x86-64 target) reinterpretation of the
first four buffer bytes as an int, as done by the expression
`*(int*)dest`. -/
def readIntNativeLE (bytes : List Nat) : Nat :=
  bytes.getD 0 0 + 256 * (bytes.getD 1 0 + 256 * (bytes.getD 2 0 + 256 * bytes.getD 3 0))

/-- Model of writeBinaryMember (format.c lines 200-226). The returned
list is the buffer content after the call (none models the `exit` on an
unhandled kind or a src of the wrong shape). Note the BINARY_INT branch:
the C passes `*(int*)dest` - the buffer's own previous bytes - to
writeIntToBinaryString instead of `*(int*)src`. -/
def writeBinaryMember (t : FormatType) (src : CVal) (dest : List Nat)
    (dest_len : Nat) : Option (List Nat) :=
  match t, src with
  | .BINARY_BOOL, .vbool b => some ([if b then 1 else 0] ++ dest.drop 1)
  | .BINARY_TYPE, .vtype ty => some ([ty % 256] ++ dest.drop 1)
  | .BINARY_INT, _ => some (writeIntToBinaryString (readIntNativeLE dest) ++ dest.drop 4)
  | .STRING, .vstr s | .STRING_NULL, .vstr s =>
      match s with
      | some bytes => some (bytes.take dest_len ++ dest.drop dest_len)
      | none => some dest
  | .BINARY_INTLIST, .vintlist l =>
      some ((l.take (dest_len / 4)).flatMap writeIntToBinaryString ++ dest.drop dest_len)
  | .BINARY_DATE_TIME, .vdate d =>
      some (writeIntToBinaryString (getCompactedDate d) ++ dest.drop 4)
  | _, _ => none

/-- Claim C3, refuted for int32 members: writeBinaryMember on a
BINARY_INT member ignores the member value entirely (it re-encodes the
destination buffer's own stale bytes), so after set + flush the bytes at
the member's offset are not the big-endian encoding of the value. At
the concrete failing input (member value 1, fresh zeroed buffer) the
bytes written are 00 00 00 00 while the encoding of 1 is 00 00 00 01. -/
theorem C3_writeBinaryMember_int_bug :
    (∀ (v1 v2 : CVal) (dest : List Nat) (len : Nat),
      writeBinaryMember .BINARY_INT v1 dest len =
        writeBinaryMember .BINARY_INT v2 dest len) ∧
    writeBinaryMember .BINARY_INT (.vint 1) [0, 0, 0, 0] 4 = some [0, 0, 0, 0] ∧
    writeIntToBinaryString 1 = [0, 0, 0, 1] := by
  refine ⟨?_, by rfl, by rfl⟩
  intro v1 v2 dest len
  rfl

/-! Section: the block cache (src/src/io/cache.c).

Files are byte maps (file descriptor, offset) → byte; a cache line's
1 KiB payload is a byte function. The hash table posLinePairs is
modelled by the list of keys it holds plus lookup over the line list;
the LRU doubly linked list is the line list in most-recently-used-first
order. The mutexes are identities under the single-threaded semantics
modelled here. End-of-file short reads are not modelled (files are
total byte maps); no claim below depends on them. -/

def CACHE_LINE_SIZE : Nat := 1024

/-- A file system: byte content by (file descriptor, byte offset). -/
def FSt : Type := Int → Nat → Nat

/-- Key of a cache line (cache.c lines 28-31). -/
structure CKey where
  file_desc : Int
  pos : Nat
deriving DecidableEq, Repr

/-- A cache line (cache.c lines 38-49), without the intrusive list
pointers (the order lives in the cache's line list). -/
structure CLine where
  key : CKey
  loaded : Bool
  altered : Bool
  data : Nat → Nat

/-- Model of the pwrite in updateCacheLine: one full line is written at
the line's current key. -/
def pwriteLine (fs : FSt) (key : CKey) (data : Nat → Nat) : FSt :=
  fun fd off =>
    if fd = key.file_desc ∧ key.pos ≤ off ∧ off < key.pos + CACHE_LINE_SIZE then
      data (off - key.pos)
    else fs fd off

/-- Model of updateCacheLine (cache.c lines 150-176): flush if altered,
then read-through if not loaded. The old_key parameter mirrors the C
signature; exactly as in the C, it is never used - the flush goes to the
line's current key. -/
def updateCacheLine (fs : FSt) (line : CLine) (_old_key : CKey) : FSt × CLine :=
  if ¬line.loaded ∨ line.altered then
    let fs1 := if line.altered then pwriteLine fs line.key line.data else fs
    let line1 := if line.altered then { line with altered := false } else line
    let line2 :=
      if ¬line1.loaded then
        { line1 with data := fun i => fs1 line.key.file_desc (line.key.pos + i),
                     loaded := true }
      else line1
    (fs1, line2)
  else (fs, line)

/-- The cache (cache.c lines 85-96): lines in MRU-first order plus the
set of keys present in posLinePairs. -/
structure CacheSt where
  lines : List CLine
  table : List CKey

def dummyLine : CLine := ⟨⟨-1, 0⟩, false, false, fun _ => 0⟩

/-- Hash-table lookup: finds the line holding the given key and returns
it with the remaining lines in order. -/
def extractByKey : List CLine → CKey → Option (CLine × List CLine)
  | [], _ => none
  | l :: ls, key =>
      if l.key = key then some (l, ls)
      else
        match extractByKey ls key with
        | some (f, rest) => some (f, l :: rest)
        | none => none

/-- Model of getCacheLine (cache.c lines 189-232). On a miss the tail
(least recently used) line is chosen; its old key is removed from the
table if the line was loaded, the line is rekeyed with loaded and
altered both cleared, and only then does updateCacheLine run - so the
altered test inside updateCacheLine always sees false on this path,
exactly as in the C. The accessed line moves to the front (MRU). On a
hit the C passes an uninitialized old_key; it is unused either way. -/
def getCacheLine (c : CacheSt) (fs : FSt) (fd : Int) (pos : Nat) :
    CacheSt × FSt × CLine :=
  let key : CKey := ⟨fd, pos - pos % CACHE_LINE_SIZE⟩
  match (if key ∈ c.table then extractByKey c.lines key else none) with
  | some (l, rest) =>
      let r := updateCacheLine fs l l.key
      (⟨r.2 :: rest, c.table⟩, r.1, r.2)
  | none =>
      match c.lines.getLast? with
      | none => (c, fs, dummyLine)
      | some l =>
          let rest := c.lines.dropLast
          let table1 := if l.loaded then c.table.erase l.key else c.table
          let old_key := l.key
          let l1 : CLine := { l with key := key, loaded := false, altered := false }
          let table2 := key :: table1
          let r := updateCacheLine fs l1 old_key
          (⟨r.2 :: rest, table2⟩, r.1, r.2)

/-- Model of getStr (cache.c lines 287-302) with fuel (none = fuel ran
out; one unit of fuel per touched cache line). -/
def getStrF : Nat → CacheSt → FSt → Int → Nat → Nat →
    Option (CacheSt × FSt × List Nat)
  | 0, _, _, _, _, _ => none
  | fuel+1, c, fs, fd, pos, max_write =>
    let r := getCacheLine c fs fd pos
    let l := r.2.2
    let line_pos := pos % CACHE_LINE_SIZE
    let str_len := CACHE_LINE_SIZE - line_pos
    let write := min str_len max_write
    let bytes := (List.range write).map (fun j => l.data (line_pos + j))
    if write < max_write then
      match getStrF fuel r.1 r.2.1 fd (pos + str_len) (max_write - str_len) with
      | none => none
      | some (c', fs', rest_bytes) => some (c', fs', bytes ++ rest_bytes)
    else some (r.1, r.2.1, bytes)

/-- Model of setStr (cache.c lines 344-361) with fuel: the line is
marked altered and the bytes land in the page, dirty in the cache
until some later flush or eviction writes them. -/
def setStrF : Nat → CacheSt → FSt → Int → Nat → List Nat → Nat →
    Option (CacheSt × FSt)
  | 0, _, _, _, _, _, _ => none
  | fuel+1, c, fs, fd, pos, buffer, write =>
    let r := getCacheLine c fs fd pos
    let l := r.2.2
    let line_pos := pos % CACHE_LINE_SIZE
    let str_len := CACHE_LINE_SIZE - line_pos
    let write_cur := min str_len write
    let newdata : Nat → Nat := fun i =>
      if line_pos ≤ i ∧ i < line_pos + write_cur then buffer.getD (i - line_pos) 0
      else l.data i
    let l' : CLine := { l with altered := true, data := newdata }
    let c2 : CacheSt := ⟨l' :: r.1.lines.tail, r.1.table⟩
    if write_cur < write then
      setStrF fuel c2 r.2.1 fd (pos + str_len) (buffer.drop str_len) (write - str_len)
    else some (c2, r.2.1)

/-- The concrete C1 scenario: a one-line cache over file descriptor 1
whose byte at offset 0 is 7. -/
def fsC1 : FSt := fun fd off => if fd = 1 ∧ off = 0 then 7 else 0

def cacheC1 : CacheSt := ⟨[dummyLine], []⟩

/-- State after set_str writes byte 9 at (file 1, offset 0). -/
def stepC1a : CacheSt × FSt := (setStrF 2 cacheC1 fsC1 1 0 [9] 1).getD (cacheC1, fsC1)

/-- State after a subsequent get at (file 1, offset 2048) evicts the
dirty page. -/
def stepC1b : CacheSt × FSt × List Nat :=
  (getStrF 3 stepC1a.1 stepC1a.2 1 2048 1).getD (stepC1a.1, stepC1a.2, [])

/-- Claim C1, refuted: after set_str stores byte 9 at (file 1, offset 0)
the page is dirty in the cache (altered, holding 9), but a get that
misses and evicts this least-recently-used dirty page never writes it
back: getCacheLine clears the altered flag before calling
updateCacheLine, and updateCacheLine ignores its old_key parameter, so
the file still holds the original byte 7 afterwards and the set_str
write is lost. -/
theorem C1_eviction_loses_dirty_write :
    (setStrF 2 cacheC1 fsC1 1 0 [9] 1).isSome = true ∧
    (stepC1a.1.lines.headD dummyLine).altered = true ∧
    (stepC1a.1.lines.headD dummyLine).data 0 = 9 ∧
    stepC1a.2 1 0 = 7 ∧
    (getStrF 3 stepC1a.1 stepC1a.2 1 2048 1).isSome = true ∧
    stepC1b.2.1 1 0 = 7 :=
  ⟨rfl, rfl, rfl, rfl, rfl, rfl⟩

/-! Section: the Indexer's entries and comparators
(src/src/io/indexer.c, src/src/types/catalog.c).

An index file line is a (key, value) pair of pos_t (embedded here as
Nat); the key-compare functions receive key words and compare them,
possibly through the key file and the cache, which the abstract
comparator folds in. -/

structure LINE where
  key : Nat
  value : Nat
deriving DecidableEq, Repr

/-- The contract of a cmpKeys comparator: a consistent three-way
comparison (sign antisymmetry and transitivity of the induced weak
order), as satisfied by directCmp and stringCmp. -/
structure IsKeyCmp (cmp : Nat → Nat → Int) : Prop where
  antisym : ∀ a b, cmp a b < 0 ↔ cmp b a > 0
  trans : ∀ a b c, cmp a b ≤ 0 → cmp b c ≤ 0 → cmp a c ≤ 0

theorem IsKeyCmp.refl {cmp} (hc : IsKeyCmp cmp) (a : Nat) : cmp a a = 0 := by
  have h := hc.antisym a a
  omega

theorem IsKeyCmp.total {cmp} (hc : IsKeyCmp cmp) (a b : Nat) :
    cmp a b ≤ 0 ∨ cmp b a ≤ 0 := by
  have h := hc.antisym a b
  omega

theorem IsKeyCmp.le_lt_trans {cmp} (hc : IsKeyCmp cmp) (a b c : Nat)
    (h1 : cmp a b ≤ 0) (h2 : cmp b c < 0) : cmp a c < 0 := by
  by_contra h
  have h3 : cmp c a ≤ 0 := by
    have := hc.antisym a c
    omega
  have h4 : cmp c b ≤ 0 := hc.trans c a b h3 h1
  have := hc.antisym b c
  omega

def keyAt (entries : List LINE) (i : Nat) : Nat := (entries.getD i ⟨0, 0⟩).key

/-- Model of the loop of retrieveKeyLowerBound (indexer.c lines
553-581), with fuel; m is recomputed from (l + r) / 2 at the top of
each iteration. -/
def lowerBoundLoop (cmp : Nat → Nat → Int) (entries : List LINE) (key : Nat) :
    Nat → Int → Int → Option Int
  | 0, _, _ => none
  | fuel+1, l, r =>
    let m := tdiv2 (l + r)
    if l < r then
      let cmp0 := cmp key (keyAt entries m.toNat)
      if cmp0 < 0 then lowerBoundLoop cmp entries key fuel l (m - 1)
      else if cmp0 > 0 then lowerBoundLoop cmp entries key fuel (m + 1) r
      else lowerBoundLoop cmp entries key fuel l m
    else
      some (if cmp key (keyAt entries l.toNat) ≤ 0 then l else l + 1)

/-- Model of retrieveKeyLowerBound (indexer.c lines 553-581). -/
def retrieveKeyLowerBound (cmp : Nat → Nat → Int) (entries : List LINE)
    (key : Nat) : Option Int :=
  if entries.length = 0 then some 0
  else lowerBoundLoop cmp entries key (entries.length + 1) 0 ((entries.length : Int) - 1)

theorem lowerBoundLoop_correct (cmp : Nat → Nat → Int) (hc : IsKeyCmp cmp)
    (entries : List LINE) (key : Nat)
    (hsorted : ∀ i j : Nat, i < j → j < entries.length →
      cmp (keyAt entries i) (keyAt entries j) ≤ 0) :
    ∀ fuel (l r : Int), 0 ≤ l → l ≤ (entries.length : Int) - 1 →
    r ≤ (entries.length : Int) - 1 →
    (r - l).toNat < fuel →
    (∀ i : Nat, (i : Int) < l → i < entries.length → cmp key (keyAt entries i) > 0) →
    (∀ i : Nat, r < (i : Int) → i < entries.length → cmp key (keyAt entries i) ≤ 0) →
    ∃ res : Nat, lowerBoundLoop cmp entries key fuel l r = some (res : Int) ∧
      res ≤ entries.length ∧
      (∀ i : Nat, i < res → cmp key (keyAt entries i) > 0) ∧
      (res < entries.length → cmp key (keyAt entries res) ≤ 0) := by
  intro fuel
  induction fuel with
  | zero => intro l r _ _ _ hf _ _; omega
  | succ fuel ih =>
      intro l r hl0 hllen hrlen hf hinvL hinvR
      rw [lowerBoundLoop]
      by_cases hlr : l < r
      · have hm := tdiv2_bounds l r (le_of_lt hlr)
        have hmlt : tdiv2 (l + r) < r := by
          unfold tdiv2
          split <;> omega
        simp only [hlr, if_pos]
        set m := tdiv2 (l + r) with hmdef
        have hmn : ((m.toNat : Int)) = m := by omega
        have hmlen : m.toNat < entries.length := by omega
        by_cases hc0 : cmp key (keyAt entries m.toNat) < 0
        · simp only [hc0, if_pos]
          apply ih l (m - 1) hl0 hllen (by omega) (by omega) hinvL
          intro i hi hilen
          by_cases him : i = m.toNat
          · rw [him]; omega
          · have h2 : m.toNat < i := by omega
            exact hc.trans key (keyAt entries m.toNat) (keyAt entries i)
              (by omega) (hsorted m.toNat i h2 hilen)
        · simp only [hc0, if_neg, if_false]
          by_cases hc1 : cmp key (keyAt entries m.toNat) > 0
          · simp only [hc1, if_pos]
            apply ih (m + 1) r (by omega) (by omega) hrlen (by omega) ?_ hinvR
            intro i hi hilen
            by_cases him : i = m.toNat
            · rw [him]; exact hc1
            · by_cases hlow : (i : Int) < l
              · exact hinvL i hlow hilen
              · have h2 : i < m.toNat := by omega
                have h3 : cmp (keyAt entries i) (keyAt entries m.toNat) ≤ 0 :=
                  hsorted i m.toNat h2 hmlen
                have h4 : cmp (keyAt entries m.toNat) key < 0 := by
                  have := hc.antisym (keyAt entries m.toNat) key
                  omega
                have h5 := hc.le_lt_trans (keyAt entries i) (keyAt entries m.toNat) key h3 h4
                have := hc.antisym (keyAt entries i) key
                omega
          · simp only [hc1, if_neg, if_false]
            apply ih l m hl0 hllen (by omega) (by omega) hinvL
            intro i hi hilen
            by_cases him : i = m.toNat
            · rw [him]; omega
            · have h2 : m.toNat < i := by omega
              exact hc.trans key (keyAt entries m.toNat) (keyAt entries i)
                (by omega) (hsorted m.toNat i h2 hilen)
      · simp only [hlr, if_neg, if_false]
        have hlen1 : 1 ≤ entries.length := by omega
        by_cases hfin : cmp key (keyAt entries l.toNat) ≤ 0
        · refine ⟨l.toNat, ?_, by omega, ?_, ?_⟩
          · simp only [hfin, if_pos]
            congr 1
            omega
          · intro i hi
            apply hinvL i (by omega) (by omega)
          · intro _
            exact hfin
        · refine ⟨l.toNat + 1, ?_, by omega, ?_, ?_⟩
          · simp only [hfin, if_neg, if_false]
            congr 1
            omega
          · intro i hi
            by_cases him : i = l.toNat
            · rw [him]; omega
            · exact hinvL i (by omega) (by omega)
          · intro hlt
            apply hinvR (l.toNat + 1) (by omega) hlt

/-- Claim C7 main theorem. -/
theorem C7_lower_bound_correct (cmp : Nat → Nat → Int) (hc : IsKeyCmp cmp)
    (entries : List LINE) (key : Nat)
    (hsorted : ∀ i j : Nat, i < j → j < entries.length →
      cmp (keyAt entries i) (keyAt entries j) ≤ 0) :
    ∃ res : Nat, retrieveKeyLowerBound cmp entries key = some (res : Int) ∧
      res ≤ entries.length ∧
      (∀ i : Nat, i < res → cmp key (keyAt entries i) > 0) ∧
      (res < entries.length → cmp key (keyAt entries res) ≤ 0) := by
  unfold retrieveKeyLowerBound
  by_cases h0 : entries.length = 0
  · refine ⟨0, by simp [h0], by omega, by omega, by omega⟩
  · simp only [h0, if_neg, if_false]
    apply lowerBoundLoop_correct cmp hc entries key hsorted (entries.length + 1)
      0 ((entries.length : Int) - 1) (by omega) (by omega) (by omega) (by omega)
    · intro i hi _; omega
    · intro i hi hilen; omega

/-- Model of directCmp (catalog.c lines 55-57). -/
def directCmp (a b : Nat) : Int := if a < b then -1 else if b < a then 1 else 0

theorem directCmp_lt_iff (a b : Nat) : directCmp a b < 0 ↔ a < b := by
  unfold directCmp
  by_cases h1 : a < b
  · simp [h1]
  · simp [h1]
    by_cases h2 : b < a <;> simp [h2] <;> omega

theorem directCmp_pos_iff (a b : Nat) : directCmp a b > 0 ↔ b < a := by
  unfold directCmp
  by_cases h1 : a < b
  · simp [h1]; omega
  · simp [h1]
    by_cases h2 : b < a <;> simp [h2] <;> omega

theorem directCmp_le_iff (a b : Nat) : directCmp a b ≤ 0 ↔ a ≤ b := by
  unfold directCmp
  by_cases h1 : a < b
  · simp [h1]; omega
  · simp [h1]
    by_cases h2 : b < a <;> simp [h2] <;> omega

theorem directCmp_isKeyCmp : IsKeyCmp directCmp := by
  constructor
  · intro a b
    rw [directCmp_lt_iff, directCmp_pos_iff]
  · intro a b c h1 h2
    rw [directCmp_le_iff] at *
    omega

/-- The two-entry index used by the C7 witness. -/
def entriesC7 : List LINE := [⟨1, 10⟩, ⟨3, 30⟩]

theorem entriesC7_sorted : ∀ i j : Nat, i < j → j < entriesC7.length →
    directCmp (keyAt entriesC7 i) (keyAt entriesC7 j) ≤ 0 := by
  intro i j hij hj
  simp only [entriesC7, List.length_cons, List.length_nil] at hj
  interval_cases j
  · omega
  · interval_cases i
    · decide

/-- Witness for C7: searching key 2 in the sorted index with keys
[1, 3] under directCmp. -/
theorem C7_lower_bound_correct_witness :
    ∃ res : Nat, retrieveKeyLowerBound directCmp entriesC7 2 = some (res : Int) ∧
      res ≤ entriesC7.length ∧
      (∀ i : Nat, i < res → directCmp 2 (keyAt entriesC7 i) > 0) ∧
      (res < entriesC7.length → directCmp 2 (keyAt entriesC7 res) ≤ 0) :=
  C7_lower_bound_correct directCmp directCmp_isKeyCmp entriesC7 2 entriesC7_sorted

/-! Section: the Indexer's grouping pass (src/src/io/indexer.c lines
341-488) and its companion values file.

The values file is modelled at byte granularity: fwrite of an int or a
pos_t writes its little-endian memory image, fread reads it back; file
holes read as zero. All values in play are C pos_t / int, embedded via
the explicit 64- and 32-bit little-endian encodings below. -/

/-- Byte files: total maps from byte position to byte, zero for holes. -/
def ByteFile : Type := Nat → Fin 256

def zeroFile : ByteFile := fun _ => 0

def writeBytes (f : ByteFile) (p : Nat) (bs : List (Fin 256)) : ByteFile :=
  fun q => if h : p ≤ q ∧ q - p < bs.length then bs.getD (q - p) 0 else f q

def readBytes (f : ByteFile) (p n : Nat) : List (Fin 256) :=
  (List.range n).map (fun i => f (p + i))

/-- Little-endian bytes of an int (the memory image fwrite copies). -/
def enc32 (v : Nat) : List (Fin 256) :=
  [⟨v % 256, by omega⟩, ⟨v / 2 ^ 8 % 256, by omega⟩,
   ⟨v / 2 ^ 16 % 256, by omega⟩, ⟨v / 2 ^ 24 % 256, by omega⟩]

def enc64 (v : Nat) : List (Fin 256) :=
  [⟨v % 256, by omega⟩, ⟨v / 2 ^ 8 % 256, by omega⟩,
   ⟨v / 2 ^ 16 % 256, by omega⟩, ⟨v / 2 ^ 24 % 256, by omega⟩,
   ⟨v / 2 ^ 32 % 256, by omega⟩, ⟨v / 2 ^ 40 % 256, by omega⟩,
   ⟨v / 2 ^ 48 % 256, by omega⟩, ⟨v / 2 ^ 56 % 256, by omega⟩]

def dec32 (bs : List (Fin 256)) : Nat :=
  (bs.getD 0 0).val + 2 ^ 8 * (bs.getD 1 0).val + 2 ^ 16 * (bs.getD 2 0).val +
    2 ^ 24 * (bs.getD 3 0).val

def dec64 (bs : List (Fin 256)) : Nat :=
  (bs.getD 0 0).val + 2 ^ 8 * (bs.getD 1 0).val + 2 ^ 16 * (bs.getD 2 0).val +
    2 ^ 24 * (bs.getD 3 0).val + 2 ^ 32 * (bs.getD 4 0).val +
    2 ^ 40 * (bs.getD 5 0).val + 2 ^ 48 * (bs.getD 6 0).val +
    2 ^ 56 * (bs.getD 7 0).val

theorem dec32_enc32 (v : Nat) (h : v < 2 ^ 32) : dec32 (enc32 v) = v := by
  simp only [dec32, enc32, List.getD]
  simp
  omega

theorem dec64_enc64 (v : Nat) (h : v < 2 ^ 64) : dec64 (enc64 v) = v := by
  simp only [dec64, enc64, List.getD]
  simp
  omega

theorem dec64_lt (bs : List (Fin 256)) : dec64 bs < 2 ^ 64 := by
  unfold dec64
  have h0 := (bs.getD 0 0).isLt
  have h1 := (bs.getD 1 0).isLt
  have h2 := (bs.getD 2 0).isLt
  have h3 := (bs.getD 3 0).isLt
  have h4 := (bs.getD 4 0).isLt
  have h5 := (bs.getD 5 0).isLt
  have h6 := (bs.getD 6 0).isLt
  have h7 := (bs.getD 7 0).isLt
  omega

theorem readBytes_writeBytes_eq (f : ByteFile) (p : Nat) (bs : List (Fin 256)) :
    readBytes (writeBytes f p bs) p bs.length = bs := by
  apply List.ext_getElem
  · simp [readBytes]
  · intro i hi hbs
    simp only [readBytes, List.getElem_map, List.getElem_range, writeBytes]
    simp only [readBytes, List.length_map, List.length_range] at hi
    have hcond : p ≤ p + i ∧ p + i - p < bs.length := by omega
    rw [dif_pos hcond]
    have : p + i - p = i := by omega
    rw [this, List.getD_eq_getElem bs 0 (by omega)]

theorem readBytes_writeBytes_disjoint (f : ByteFile) (p q n : Nat)
    (bs : List (Fin 256)) (h : q + n ≤ p ∨ p + bs.length ≤ q) :
    readBytes (writeBytes f p bs) q n = readBytes f q n := by
  apply List.ext_getElem
  · simp [readBytes]
  · intro i hi hbs
    simp only [readBytes, List.getElem_map, List.getElem_range, writeBytes]
    simp only [readBytes, List.length_map, List.length_range] at hi
    have hcond : ¬(p ≤ q + i ∧ q + i - p < bs.length) := by omega
    rw [dif_neg hcond]

theorem readBytes_writeBytes_within (f : ByteFile) (p off n : Nat)
    (bs : List (Fin 256)) (h : off + n ≤ bs.length) :
    readBytes (writeBytes f p bs) (p + off) n = (bs.drop off).take n := by
  apply List.ext_getElem
  · simp [readBytes]
    omega
  · intro i hi hbs
    simp only [readBytes, List.getElem_map, List.getElem_range, writeBytes]
    simp only [readBytes, List.length_map, List.length_range] at hi
    have hcond : p ≤ p + off + i ∧ p + off + i - p < bs.length := by omega
    rw [dif_pos hcond]
    rw [List.getElem_take, List.getElem_drop]
    have heq : p + off + i - p = off + i := by omega
    rw [heq, List.getD_eq_getElem bs 0 (by omega)]

/-- Adjacent-duplicate removal loop of removeDuplicatesAux: last is the
most recently kept element. -/
def dedupAux (last : Nat) : List Nat → List Nat
  | [] => []
  | y :: rest => if y = last then dedupAux last rest else y :: dedupAux y rest

def dedupAdj : List Nat → List Nat
  | [] => []
  | x :: rest => x :: dedupAux x rest

/-- Model of qsort with compareAux: ascending sort of pos_t values. -/
def sortVals (l : List Nat) : List Nat := l.insertionSort (· ≤ ·)

/-- Model of removeDuplicatesAux (indexer.c lines 356-380): read the
block back, sort ascending, drop adjacent duplicates, write back, return
the new count. -/
def removeDuplicatesAux (f : ByteFile) (pos : Nat) (elems : Nat) : ByteFile × Nat :=
  let vals := (List.range elems).map (fun i => dec64 (readBytes f (pos + 8 * i) 8))
  let deduped := dedupAdj (sortVals vals)
  (writeBytes f pos (deduped.flatMap enc64), deduped.length)

/-- The grouping loop state (groupIndexer, indexer.c lines 394-488). -/
structure GroupSt where
  dest : List LINE
  out : ByteFile
  out_block : Nat
  out_pos : Nat
  block_length : Nat
  last_key : Nat
  block_no : Nat
  errors : Nat

/-- State after the first entry has been handled (indexer.c lines
421-428). -/
def groupInit (l0 : LINE) : GroupSt :=
  { dest := [⟨l0.key, 0⟩]
    out := writeBytes zeroFile 4 (enc64 l0.value)
    out_block := 0
    out_pos := 12
    block_length := 1
    last_key := l0.key
    block_no := 1
    errors := 0 }

/-- One iteration of the grouping loop (indexer.c lines 430-458). -/
def groupStep (cmp : Nat → Nat → Int) (dedup : Bool) (st : GroupSt) (l : LINE) :
    GroupSt :=
  let cmpv := cmp l.key st.last_key
  let errors' := if cmpv < 0 then st.errors + 1 else st.errors
  if cmpv = 0 then
    { st with
        errors := errors'
        block_length := st.block_length + 1
        out := writeBytes st.out st.out_pos (enc64 l.value)
        out_pos := st.out_pos + 8 }
  else
    let fl :=
      if dedup then removeDuplicatesAux st.out (st.out_block + 4) st.block_length
      else (st.out, st.block_length)
    let out_pos1 := if dedup then st.out_block + 4 + 8 * fl.2 else st.out_pos
    let f2 := writeBytes fl.1 st.out_block (enc32 fl.2)
    let out_block2 := out_pos1
    let out_pos2 := out_pos1 + 4
    { dest := st.dest ++ [⟨l.key, out_block2⟩]
      out := writeBytes f2 out_pos2 (enc64 l.value)
      out_block := out_block2
      out_pos := out_pos2 + 8
      block_length := 1
      last_key := l.key
      block_no := st.block_no + 1
      errors := errors' }

/-- Closing of the final block (indexer.c lines 460-466). -/
def groupFinish (dedup : Bool) (st : GroupSt) : GroupSt :=
  let fl :=
    if dedup then removeDuplicatesAux st.out (st.out_block + 4) st.block_length
    else (st.out, st.block_length)
  { st with
      out := writeBytes fl.1 st.out_block (enc32 fl.2)
      block_length := fl.2 }

structure GroupResult where
  dest : List LINE
  out : ByteFile
  elem_no : Nat
  errors : Nat

/-- Model of groupIndexer (indexer.c lines 394-488). An empty indexer
skips the whole loop and produces an empty index and values file. -/
def groupIndexer (cmp : Nat → Nat → Int) (dedup : Bool) (entries : List LINE) :
    GroupResult :=
  match entries with
  | [] => ⟨[], zeroFile, 0, 0⟩
  | l0 :: rest =>
      let st := rest.foldl (groupStep cmp dedup) (groupInit l0)
      let st' := groupFinish dedup st
      ⟨st'.dest, st'.out, st'.block_no, st'.errors⟩

/-- Model of getGroupSize (indexer.c lines 711-719). -/
def getGroupSize (f : ByteFile) (group : Nat) : Nat := dec32 (readBytes f group 4)

/-- Model of getGroupElem (indexer.c lines 731-739). -/
def getGroupElem (f : ByteFile) (group : Nat) (elem : Nat) : Nat :=
  dec64 (readBytes f (group + 4 + 8 * elem) 8)

theorem dedupAux_subset (last : Nat) (l : List Nat) :
    ∀ y ∈ dedupAux last l, y ∈ l := by
  induction l generalizing last with
  | nil => intro y hy; simp [dedupAux] at hy
  | cons x rest ih =>
      intro y hy
      rw [dedupAux] at hy
      by_cases hx : x = last
      · simp only [hx, if_pos] at hy
        exact List.mem_cons_of_mem x (ih last y hy)
      · simp only [hx, if_neg, if_false] at hy
        rcases List.mem_cons.mp hy with h | h
        · exact h ▸ List.mem_cons_self x rest
        · exact List.mem_cons_of_mem x (ih x y h)

theorem dedupAux_length_le (last : Nat) (l : List Nat) :
    (dedupAux last l).length ≤ l.length := by
  induction l generalizing last with
  | nil => simp [dedupAux]
  | cons x rest ih =>
      rw [dedupAux]
      by_cases hx : x = last
      · simp only [hx, if_pos]
        have := ih last
        simp only [List.length_cons]
        omega
      · simp only [hx, if_neg, if_false, List.length_cons]
        have := ih x
        omega

theorem dedupAux_strict (last : Nat) (l : List Nat)
    (h : ∀ x ∈ l, last ≤ x) (hs : List.Pairwise (· ≤ ·) l) :
    (∀ y ∈ dedupAux last l, last < y) ∧
      List.Pairwise (· < ·) (dedupAux last l) := by
  induction l generalizing last with
  | nil => exact ⟨by intro y hy; simp [dedupAux] at hy, by simp [dedupAux]⟩
  | cons x rest ih =>
      rw [dedupAux]
      rcases List.pairwise_cons.mp hs with ⟨hxrest, hrest⟩
      by_cases hx : x = last
      · simp only [hx, if_pos]
        apply ih last
        · intro z hz
          exact le_trans (hx ▸ h x (List.mem_cons_self x rest)) (hx ▸ hxrest z hz)
        · exact hrest
      · simp only [hx, if_neg, if_false]
        have hlx : last < x := by
          have := h x (List.mem_cons_self x rest)
          omega
        have hih := ih x hxrest hrest
        constructor
        · intro y hy
          rcases List.mem_cons.mp hy with hh | hh
          · omega
          · have := hih.1 y hh
            omega
        · rw [List.pairwise_cons]
          exact ⟨hih.1, hih.2⟩

theorem dedupAdj_strict (l : List Nat) (hs : List.Pairwise (· ≤ ·) l) :
    List.Pairwise (· < ·) (dedupAdj l) := by
  cases l with
  | nil => simp [dedupAdj]
  | cons x rest =>
      rw [dedupAdj, List.pairwise_cons]
      rcases List.pairwise_cons.mp hs with ⟨hxrest, hrest⟩
      exact dedupAux_strict x rest hxrest hrest

theorem dedupAdj_subset (l : List Nat) : ∀ y ∈ dedupAdj l, y ∈ l := by
  cases l with
  | nil => intro y hy; simp [dedupAdj] at hy
  | cons x rest =>
      intro y hy
      rw [dedupAdj] at hy
      rcases List.mem_cons.mp hy with h | h
      · exact h ▸ List.mem_cons_self x rest
      · exact List.mem_cons_of_mem x (dedupAux_subset x rest y h)

theorem dedupAdj_length_le (l : List Nat) : (dedupAdj l).length ≤ l.length := by
  cases l with
  | nil => simp [dedupAdj]
  | cons x rest =>
      rw [dedupAdj]
      have := dedupAux_length_le x rest
      simp only [List.length_cons]
      omega

theorem dedupAdj_length_pos (l : List Nat) (h : l ≠ []) :
    0 < (dedupAdj l).length := by
  cases l with
  | nil => exact absurd rfl h
  | cons x rest => simp [dedupAdj]

theorem sortVals_sorted (l : List Nat) : List.Pairwise (· ≤ ·) (sortVals l) :=
  List.sorted_insertionSort (· ≤ ·) l

theorem sortVals_perm (l : List Nat) : (sortVals l).Perm l :=
  List.perm_insertionSort (· ≤ ·) l

theorem flatMap_enc64_length (vals : List Nat) :
    (vals.flatMap enc64).length = 8 * vals.length := by
  induction vals with
  | nil => simp
  | cons v rest ih =>
      rw [List.flatMap_cons, List.length_append, ih]
      simp [enc64]
      ring

theorem flatMap_enc64_slice (vals : List Nat) (k : Nat) (hk : k < vals.length) :
    ((vals.flatMap enc64).drop (8 * k)).take 8 = enc64 (vals.getD k 0) := by
  induction vals generalizing k with
  | nil => simp at hk
  | cons v rest ih =>
      rw [List.flatMap_cons]
      cases k with
      | zero =>
          simp only [Nat.mul_zero, List.drop_zero, List.getD_cons_zero]
          have h8 : (enc64 v).length = 8 := by simp [enc64]
          rw [← h8, List.take_left]
      | succ k =>
          have h8 : (enc64 v).length = 8 := by simp [enc64]
          have hdrop : (enc64 v ++ rest.flatMap enc64).drop (8 * (k + 1)) =
              (rest.flatMap enc64).drop (8 * k) := by
            rw [List.drop_append_eq_append_drop]
            rw [h8]
            have h1 : 8 * (k + 1) - 8 = 8 * k := by omega
            have h2 : (enc64 v).drop (8 * (k+1)) = [] := by
              apply List.drop_eq_nil_of_le
              omega
            rw [h2, h1]
            simp
          rw [hdrop, List.getD_cons_succ]
          exact ih k (by simpa using hk)

theorem IsKeyCmp.lt_le_trans {cmp} (hc : IsKeyCmp cmp) (a b c : Nat)
    (h1 : cmp a b < 0) (h2 : cmp b c ≤ 0) : cmp a c < 0 := by
  by_contra h
  have h3 : cmp c a ≤ 0 := by
    have := hc.antisym a c
    omega
  have h4 : cmp b a ≤ 0 := hc.trans b c a h2 h3
  have := hc.antisym a b
  omega

theorem IsKeyCmp.eq_symm {cmp} (hc : IsKeyCmp cmp) (a b : Nat)
    (h : cmp a b = 0) : cmp b a = 0 := by
  have h1 := hc.antisym a b
  have h2 := hc.antisym b a
  omega

/-- What closing the current block at out_block produces: the dedup
rewrite followed by the length write (the common part of the else branch
of the grouping loop and of the final close). -/
theorem closeBlock_props (f : ByteFile) (ob bl : Nat) (hbl : 1 ≤ bl)
    (hbl32 : bl < 2 ^ 32) :
    1 ≤ (removeDuplicatesAux f (ob + 4) bl).2 ∧
    (removeDuplicatesAux f (ob + 4) bl).2 ≤ bl ∧
    getGroupSize (writeBytes (removeDuplicatesAux f (ob + 4) bl).1 ob
      (enc32 (removeDuplicatesAux f (ob + 4) bl).2)) ob =
      (removeDuplicatesAux f (ob + 4) bl).2 ∧
    (∀ k1 k2, k1 < k2 → k2 < (removeDuplicatesAux f (ob + 4) bl).2 →
      getGroupElem (writeBytes (removeDuplicatesAux f (ob + 4) bl).1 ob
        (enc32 (removeDuplicatesAux f (ob + 4) bl).2)) ob k1 <
      getGroupElem (writeBytes (removeDuplicatesAux f (ob + 4) bl).1 ob
        (enc32 (removeDuplicatesAux f (ob + 4) bl).2)) ob k2) := by
  unfold removeDuplicatesAux
  simp only
  set vals := (List.range bl).map (fun i => dec64 (readBytes f (ob + 4 + 8 * i) 8))
    with hvals
  set deduped := dedupAdj (sortVals vals) with hdeduped
  have hvlen : vals.length = bl := by simp [hvals]
  have hslen : (sortVals vals).length = bl := by
    rw [(sortVals_perm vals).length_eq, hvlen]
  have hsne : sortVals vals ≠ [] := by
    intro hnil
    rw [hnil] at hslen
    simp at hslen
    omega
  have hdpos : 1 ≤ deduped.length := by
    rw [hdeduped]
    exact dedupAdj_length_pos _ hsne
  have hdle : deduped.length ≤ bl := by
    rw [hdeduped]
    have := dedupAdj_length_le (sortVals vals)
    omega
  have hstrict : List.Pairwise (· < ·) deduped :=
    dedupAdj_strict _ (sortVals_sorted vals)
  have hdval : ∀ v ∈ deduped, v < 2 ^ 64 := by
    intro v hv
    have h1 : v ∈ sortVals vals := dedupAdj_subset _ v hv
    have h2 : v ∈ vals := (sortVals_perm vals).mem_iff.mp h1
    rw [hvals] at h2
    rcases List.mem_map.mp h2 with ⟨i, _, hie⟩
    rw [← hie]
    exact dec64_lt _
  have hflen : (deduped.flatMap enc64).length = 8 * deduped.length :=
    flatMap_enc64_length deduped
  have hcell : ∀ k, k < deduped.length →
      dec64 (readBytes (writeBytes (writeBytes f (ob + 4) (deduped.flatMap enc64)) ob
        (enc32 deduped.length)) (ob + 4 + 8 * k) 8) = deduped.getD k 0 := by
    intro k hk
    rw [readBytes_writeBytes_disjoint _ _ _ _ _
      (by right
          have h4 : (enc32 deduped.length).length = 4 := by simp [enc32]
          omega)]
    have harr : ob + 4 + 8 * k = (ob + 4) + 8 * k := by omega
    rw [harr, readBytes_writeBytes_within _ _ _ _ _ (by rw [hflen]; omega)]
    rw [flatMap_enc64_slice deduped k hk]
    apply dec64_enc64
    apply hdval
    have : deduped.getD k 0 = deduped[k] := List.getD_eq_getElem deduped 0 hk
    rw [this]
    exact List.getElem_mem hk
  refine ⟨hdpos, hdle, ?_, ?_⟩
  · unfold getGroupSize
    have h4 : (4 : Nat) = (enc32 deduped.length).length := by simp [enc32]
    rw [h4, readBytes_writeBytes_eq]
    exact dec32_enc32 _ (by omega)
  · intro k1 k2 hk12 hk2
    unfold getGroupElem
    rw [hcell k1 (by omega), hcell k2 hk2]
    rw [List.getD_eq_getElem deduped 0 (by omega), List.getD_eq_getElem deduped 0 hk2]
    exact List.pairwise_iff_getElem.mp hstrict k1 k2 (by omega) hk2 hk12

theorem closeBlock_preserves (f : ByteFile) (ob bl q n : Nat) (h : q + n ≤ ob) :
    readBytes (writeBytes (removeDuplicatesAux f (ob + 4) bl).1 ob
      (enc32 (removeDuplicatesAux f (ob + 4) bl).2)) q n = readBytes f q n := by
  rw [readBytes_writeBytes_disjoint _ _ _ _ _ (by left; omega)]
  unfold removeDuplicatesAux
  simp only
  rw [readBytes_writeBytes_disjoint _ _ _ _ _ (by left; omega)]

/-- The grouping loop invariant for the dedup = true pass: the open
block's extent matches out_pos; the closed blocks chain from offset 0 up
to out_block with positive sizes and strictly increasing contents; the
emitted keys are strictly increasing; the last emitted key is
cmp-equal to last_key. -/
structure GInv (cmp : Nat → Nat → Int) (st : GroupSt) : Prop where
  hpos : st.out_pos = st.out_block + 4 + 8 * st.block_length
  hbl : 1 ≤ st.block_length
  hlen : st.dest.length = st.block_no
  hne : 1 ≤ st.dest.length
  hlast : (st.dest.getD (st.dest.length - 1) ⟨0, 0⟩).value = st.out_block
  hchain : ∀ j, j + 1 < st.dest.length →
    (st.dest.getD (j + 1) ⟨0, 0⟩).value =
      (st.dest.getD j ⟨0, 0⟩).value + 4 +
        8 * getGroupSize st.out (st.dest.getD j ⟨0, 0⟩).value
  hsizepos : ∀ j, j + 1 < st.dest.length →
    1 ≤ getGroupSize st.out (st.dest.getD j ⟨0, 0⟩).value
  hcontent : ∀ j, j + 1 < st.dest.length → ∀ k1 k2, k1 < k2 →
    k2 < getGroupSize st.out (st.dest.getD j ⟨0, 0⟩).value →
    getGroupElem st.out (st.dest.getD j ⟨0, 0⟩).value k1 <
      getGroupElem st.out (st.dest.getD j ⟨0, 0⟩).value k2
  hkeys : ∀ j1 j2, j1 < j2 → j2 < st.dest.length →
    cmp (st.dest.getD j1 ⟨0, 0⟩).key (st.dest.getD j2 ⟨0, 0⟩).key < 0
  hlastkey : cmp (st.dest.getD (st.dest.length - 1) ⟨0, 0⟩).key st.last_key = 0

theorem GInv.value_mono {cmp st} (hinv : GInv cmp st) :
    ∀ j2 j1, j1 ≤ j2 → j2 < st.dest.length →
      (st.dest.getD j1 ⟨0, 0⟩).value ≤ (st.dest.getD j2 ⟨0, 0⟩).value := by
  intro j2
  induction j2 with
  | zero => intro j1 h1 _; interval_cases j1; omega
  | succ j2 ih =>
      intro j1 h1 h2
      by_cases hj : j1 = j2 + 1
      · rw [hj]
      · have h3 := ih j1 (by omega) (by omega)
        have h4 := hinv.hchain j2 h2
        omega

theorem GInv.region_below {cmp st} (hinv : GInv cmp st) :
    ∀ j, j + 1 < st.dest.length →
      (st.dest.getD j ⟨0, 0⟩).value + 4 +
        8 * getGroupSize st.out (st.dest.getD j ⟨0, 0⟩).value ≤ st.out_block := by
  intro j hj
  have h1 := hinv.hchain j hj
  have h2 := hinv.value_mono (st.dest.length - 1) (j + 1) (by omega) (by omega)
  have h3 := hinv.hlast
  omega

theorem GInv.preserve_size {cmp st} (hinv : GInv cmp st) (f' : ByteFile)
    (hpr : ∀ q n, q + n ≤ st.out_block → readBytes f' q n = readBytes st.out q n) :
    ∀ j, j + 1 < st.dest.length →
      getGroupSize f' (st.dest.getD j ⟨0, 0⟩).value =
        getGroupSize st.out (st.dest.getD j ⟨0, 0⟩).value := by
  intro j hj
  have hb := hinv.region_below j hj
  unfold getGroupSize
  rw [hpr _ _ (by omega)]

theorem GInv.preserve_elem {cmp st} (hinv : GInv cmp st) (f' : ByteFile)
    (hpr : ∀ q n, q + n ≤ st.out_block → readBytes f' q n = readBytes st.out q n) :
    ∀ j, j + 1 < st.dest.length → ∀ k,
      k < getGroupSize st.out (st.dest.getD j ⟨0, 0⟩).value →
      getGroupElem f' (st.dest.getD j ⟨0, 0⟩).value k =
        getGroupElem st.out (st.dest.getD j ⟨0, 0⟩).value k := by
  intro j hj k hk
  have hb := hinv.region_below j hj
  unfold getGroupElem
  rw [hpr _ _ (by omega)]

theorem IsKeyCmp.refl0 {cmp} (hc : IsKeyCmp cmp) (a : Nat) : cmp a a = 0 := by
  have h := hc.antisym a a
  omega

theorem getD_append_left (l : List LINE) (x : LINE) (j : Nat) (hj : j < l.length) :
    (l ++ [x]).getD j ⟨0, 0⟩ = l.getD j ⟨0, 0⟩ := by
  rw [List.getD_eq_getElem _ _ (by simp; omega), List.getD_eq_getElem _ _ hj]
  rw [List.getElem_append_left hj]

theorem getD_append_last (l : List LINE) (x : LINE) :
    (l ++ [x]).getD l.length ⟨0, 0⟩ = x := by
  rw [List.getD_eq_getElem _ _ (by simp)]
  simp

theorem groupStep_inv (cmp : Nat → Nat → Int) (hc : IsKeyCmp cmp)
    (st : GroupSt) (l : LINE) (prevKey : Nat)
    (hinv : GInv cmp st) (hB32 : st.block_length < 2 ^ 32)
    (hprev : cmp prevKey st.last_key = 0)
    (hord : cmp prevKey l.key ≤ 0) :
    GInv cmp (groupStep cmp true st l) ∧
    (groupStep cmp true st l).block_length ≤ st.block_length + 1 ∧
    cmp l.key (groupStep cmp true st l).last_key = 0 ∧
    (groupStep cmp true st l).dest.length ≤ st.dest.length + 1 := by
  unfold groupStep
  simp only [if_true]
  by_cases hcm : cmp l.key st.last_key = 0
  · simp only [hcm, if_pos]
    have hpr : ∀ q n, q + n ≤ st.out_block →
        readBytes (writeBytes st.out st.out_pos (enc64 l.value)) q n =
          readBytes st.out q n := by
      intro q n hqn
      have hp := hinv.hpos
      exact readBytes_writeBytes_disjoint _ _ _ _ _ (by left; omega)
    refine ⟨⟨?_, ?_, ?_, ?_, ?_, ?_, ?_, ?_, ?_, ?_⟩, ?_, ?_, ?_⟩
    · dsimp only; have := hinv.hpos; omega
    · dsimp only; have := hinv.hbl; omega
    · dsimp only; exact hinv.hlen
    · dsimp only; exact hinv.hne
    · dsimp only; exact hinv.hlast
    · dsimp only
      intro j hj
      rw [hinv.preserve_size _ hpr j hj]
      exact hinv.hchain j hj
    · dsimp only
      intro j hj
      rw [hinv.preserve_size _ hpr j hj]
      exact hinv.hsizepos j hj
    · dsimp only
      intro j hj k1 k2 hk12 hk2
      rw [hinv.preserve_size _ hpr j hj] at hk2
      rw [hinv.preserve_elem _ hpr j hj k1 (by omega),
          hinv.preserve_elem _ hpr j hj k2 hk2]
      exact hinv.hcontent j hj k1 k2 hk12 hk2
    · dsimp only; exact hinv.hkeys
    · dsimp only; exact hinv.hlastkey
    · dsimp only; omega
    · dsimp only
    · dsimp only; omega
  · simp only [hcm, if_neg, if_false]
    have hcmpos : cmp l.key st.last_key > 0 := by
      by_contra hneg
      have hlt : cmp l.key st.last_key < 0 := by omega
      have h1 : cmp st.last_key prevKey = 0 := hc.eq_symm _ _ hprev
      have h2 : cmp l.key prevKey < 0 := hc.lt_le_trans _ _ _ hlt (by omega)
      have h3 := hc.antisym l.key prevKey
      omega
    have hcb := closeBlock_props st.out st.out_block st.block_length hinv.hbl
      (by omega)
    obtain ⟨hd1, hdle, hsize, hcont⟩ := hcb
    set len1 := (removeDuplicatesAux st.out (st.out_block + 4) st.block_length).2
      with hlen1
    set f2 := writeBytes (removeDuplicatesAux st.out (st.out_block + 4)
      st.block_length).1 st.out_block (enc32 len1) with hf2
    set ob2 := st.out_block + 4 + 8 * len1 with hob2
    have hpr : ∀ q n, q + n ≤ st.out_block →
        readBytes (writeBytes f2 (ob2 + 4) (enc64 l.value)) q n =
          readBytes st.out q n := by
      intro q n hqn
      rw [readBytes_writeBytes_disjoint _ _ _ _ _ (by left; omega)]
      rw [hf2, hlen1]
      exact closeBlock_preserves st.out st.out_block st.block_length q n hqn
    have hsize3 : getGroupSize (writeBytes f2 (ob2 + 4) (enc64 l.value))
        st.out_block = len1 := by
      unfold getGroupSize
      rw [readBytes_writeBytes_disjoint _ _ _ _ _ (by left; omega)]
      exact hsize
    have hcont3 : ∀ k1 k2, k1 < k2 → k2 < len1 →
        getGroupElem (writeBytes f2 (ob2 + 4) (enc64 l.value)) st.out_block k1 <
          getGroupElem (writeBytes f2 (ob2 + 4) (enc64 l.value)) st.out_block k2 := by
      intro k1 k2 hk12 hk2
      have he : ∀ k, k < len1 →
          getGroupElem (writeBytes f2 (ob2 + 4) (enc64 l.value)) st.out_block k =
            getGroupElem f2 st.out_block k := by
        intro k hk
        unfold getGroupElem
        rw [readBytes_writeBytes_disjoint _ _ _ _ _ (by left; omega)]
      rw [he k1 (by omega), he k2 hk2]
      exact hcont k1 k2 hk12 hk2
    have hlend := hinv.hne
    refine ⟨⟨?_, ?_, ?_, ?_, ?_, ?_, ?_, ?_, ?_, ?_⟩, ?_, ?_, ?_⟩
    · dsimp only
    · dsimp only; omega
    · dsimp only [List.length_append, List.length_cons, List.length_nil]
      have := hinv.hlen
      simp only [List.length_append, List.length_cons, List.length_nil]
      omega
    · simp only [List.length_append, List.length_cons, List.length_nil]
      omega
    · simp only [List.length_append, List.length_cons, List.length_nil]
      have harr : st.dest.length + 1 - 1 = st.dest.length := by omega
      rw [harr, getD_append_last]
    · simp only [List.length_append, List.length_cons, List.length_nil]
      intro j hj
      by_cases hjold : j + 1 < st.dest.length
      · rw [getD_append_left st.dest _ (j + 1) hjold,
            getD_append_left st.dest _ j (by omega)]
        rw [hinv.preserve_size _ hpr j hjold]
        exact hinv.hchain j hjold
      · have hj1 : j + 1 = st.dest.length := by omega
        have hjeq : j = st.dest.length - 1 := by omega
        rw [hj1, getD_append_last, getD_append_left st.dest _ j (by omega)]
        dsimp only
        rw [hjeq, hinv.hlast, hsize3]
    · simp only [List.length_append, List.length_cons, List.length_nil]
      intro j hj
      by_cases hjold : j + 1 < st.dest.length
      · rw [getD_append_left st.dest _ j (by omega)]
        rw [hinv.preserve_size _ hpr j hjold]
        exact hinv.hsizepos j hjold
      · have hjeq : j = st.dest.length - 1 := by omega
        rw [getD_append_left st.dest _ j (by omega), hjeq, hinv.hlast, hsize3]
        omega
    · simp only [List.length_append, List.length_cons, List.length_nil]
      intro j hj k1 k2 hk12 hk2
      by_cases hjold : j + 1 < st.dest.length
      · rw [getD_append_left st.dest _ j (by omega)] at hk2 ⊢
        rw [hinv.preserve_size _ hpr j hjold] at hk2
        rw [hinv.preserve_elem _ hpr j hjold k1 (by omega),
            hinv.preserve_elem _ hpr j hjold k2 hk2]
        exact hinv.hcontent j hjold k1 k2 hk12 hk2
      · have hjeq : j = st.dest.length - 1 := by omega
        rw [getD_append_left st.dest _ j (by omega), hjeq, hinv.hlast] at hk2 ⊢
        rw [hsize3] at hk2
        exact hcont3 k1 k2 hk12 hk2
    · simp only [List.length_append, List.length_cons, List.length_nil]
      intro j1 j2 hj12 hj2
      by_cases hj2old : j2 < st.dest.length
      · rw [getD_append_left st.dest _ j2 hj2old,
            getD_append_left st.dest _ j1 (by omega)]
        exact hinv.hkeys j1 j2 hj12 hj2old
      · have hj2eq : j2 = st.dest.length := by omega
        rw [hj2eq, getD_append_last, getD_append_left st.dest _ j1 (by omega)]
        dsimp only
        have hj1le : cmp (st.dest.getD j1 ⟨0, 0⟩).key st.last_key ≤ 0 := by
          by_cases hj1last : j1 = st.dest.length - 1
          · rw [hj1last]
            have := hinv.hlastkey
            omega
          · have h1 := hinv.hkeys j1 (st.dest.length - 1) (by omega) (by omega)
            have h2 := hinv.hlastkey
            have h4 := hc.lt_le_trans (st.dest.getD j1 ⟨0, 0⟩).key
              (st.dest.getD (st.dest.length - 1) ⟨0, 0⟩).key st.last_key h1
              (by omega)
            omega
        have h3 : cmp st.last_key l.key < 0 := by
          have := hc.antisym st.last_key l.key
          omega
        exact hc.le_lt_trans _ _ _ hj1le h3
    · simp only [List.length_append, List.length_cons, List.length_nil]
      have harr : st.dest.length + 1 - 1 = st.dest.length := by omega
      rw [harr, getD_append_last]
      dsimp only
      exact hc.refl0 l.key
    · dsimp only; omega
    · dsimp only; exact hc.refl0 l.key
    · dsimp only [List.length_append, List.length_cons, List.length_nil]
      simp

theorem groupFold_inv (cmp : Nat → Nat → Int) (hc : IsKeyCmp cmp) :
    ∀ (rest : List LINE) (st : GroupSt) (prevKey : Nat),
    GInv cmp st →
    cmp prevKey st.last_key = 0 →
    st.block_length + rest.length < 2 ^ 32 →
    List.Chain (fun a b => cmp a b ≤ 0) prevKey (rest.map LINE.key) →
    GInv cmp (rest.foldl (groupStep cmp true) st) ∧
    (rest.foldl (groupStep cmp true) st).block_length < 2 ^ 32 := by
  intro rest
  induction rest with
  | nil =>
      intro st prevKey hinv hprev hB hch
      simp only [List.foldl_nil]
      exact ⟨hinv, by simp at hB; omega⟩
  | cons l rest' ih =>
      intro st prevKey hinv hprev hB hch
      simp only [List.map_cons, List.chain_cons] at hch
      have hstep := groupStep_inv cmp hc st l prevKey hinv
        (by simp at hB; omega) hprev hch.1
      simp only [List.foldl_cons]
      apply ih (groupStep cmp true st l) l.key hstep.1 hstep.2.2.1
      · have := hstep.2.1
        simp only [List.length_cons] at hB
        omega
      · exact hch.2

theorem groupFinish_inv (cmp : Nat → Nat → Int) (st : GroupSt)
    (hinv : GInv cmp st) (hB32 : st.block_length < 2 ^ 32) :
    (groupFinish true st).dest = st.dest ∧
    (groupFinish true st).block_no = st.block_no ∧
    (∀ j, j < (groupFinish true st).dest.length →
      1 ≤ getGroupSize (groupFinish true st).out
        ((groupFinish true st).dest.getD j ⟨0, 0⟩).value) ∧
    (∀ j, j < (groupFinish true st).dest.length → ∀ k1 k2, k1 < k2 →
      k2 < getGroupSize (groupFinish true st).out
        ((groupFinish true st).dest.getD j ⟨0, 0⟩).value →
      getGroupElem (groupFinish true st).out
        ((groupFinish true st).dest.getD j ⟨0, 0⟩).value k1 <
      getGroupElem (groupFinish true st).out
        ((groupFinish true st).dest.getD j ⟨0, 0⟩).value k2) := by
  unfold groupFinish
  simp only [if_true]
  have hcb := closeBlock_props st.out st.out_block st.block_length hinv.hbl hB32
  obtain ⟨hd1, hdle, hsize, hcont⟩ := hcb
  have hpr : ∀ q n, q + n ≤ st.out_block →
      readBytes (writeBytes (removeDuplicatesAux st.out (st.out_block + 4)
        st.block_length).1 st.out_block
        (enc32 (removeDuplicatesAux st.out (st.out_block + 4) st.block_length).2))
        q n = readBytes st.out q n :=
    fun q n hqn => closeBlock_preserves st.out st.out_block st.block_length q n hqn
  refine ⟨trivial, trivial, ?_, ?_⟩
  · intro j hj
    by_cases hjold : j + 1 < st.dest.length
    · rw [hinv.preserve_size _ hpr j hjold]
      exact hinv.hsizepos j hjold
    · have hjeq : j = st.dest.length - 1 := by omega
      rw [hjeq, hinv.hlast, hsize]
      exact hd1
  · intro j hj k1 k2 hk12 hk2
    by_cases hjold : j + 1 < st.dest.length
    · rw [hinv.preserve_size _ hpr j hjold] at hk2
      rw [hinv.preserve_elem _ hpr j hjold k1 (by omega),
          hinv.preserve_elem _ hpr j hjold k2 hk2]
      exact hinv.hcontent j hjold k1 k2 hk12 hk2
    · have hjeq : j = st.dest.length - 1 := by omega
      rw [hjeq, hinv.hlast] at hk2 ⊢
      rw [hsize] at hk2
      exact hcont k1 k2 hk12 hk2


theorem pairwise_keys_chain (cmp : Nat → Nat → Int) :
    ∀ (rest : List LINE) (l0 : LINE),
    (∀ i j : Nat, i < j → j < (l0 :: rest).length →
      cmp (keyAt (l0 :: rest) i) (keyAt (l0 :: rest) j) ≤ 0) →
    List.Chain (fun a b => cmp a b ≤ 0) l0.key (rest.map LINE.key) := by
  intro rest
  induction rest with
  | nil => intro l0 _; exact List.Chain.nil
  | cons l1 rest' ih =>
      intro l0 h
      rw [List.map_cons]
      apply List.Chain.cons
      · have := h 0 1 (by omega) (by simp)
        simpa [keyAt] using this
      · apply ih l1
        intro i j hij hj
        have hsh := h (i + 1) (j + 1) (by omega) (by simp at hj ⊢; omega)
        simpa [keyAt, List.getD_cons_succ] using hsh

def exC6 : List LINE := [⟨7, 3⟩, ⟨7, 3⟩, ⟨7, 5⟩]

/-- Claim C6: for every consistent comparator and sorted indexer, after
group with dedup = true the emitted keys are strictly increasing in the
same order as the sorted index (hence unique), every group block is
non-empty and contains no two equal values; and in particular the
collaborator example (7,3),(7,3),(7,5) yields a single group for key 7
whose block is [3, 5]. -/
theorem C6_group_dedup (cmp : Nat → Nat → Int) (hc : IsKeyCmp cmp)
    (entries : List LINE) (hlen32 : entries.length < 2 ^ 32)
    (hsorted : ∀ i j : Nat, i < j → j < entries.length →
      cmp (keyAt entries i) (keyAt entries j) ≤ 0) :
    ((∀ j1 j2, j1 < j2 → j2 < (groupIndexer cmp true entries).dest.length →
        cmp ((groupIndexer cmp true entries).dest.getD j1 ⟨0, 0⟩).key
          ((groupIndexer cmp true entries).dest.getD j2 ⟨0, 0⟩).key < 0) ∧
      (∀ j, j < (groupIndexer cmp true entries).dest.length →
        1 ≤ getGroupSize (groupIndexer cmp true entries).out
          ((groupIndexer cmp true entries).dest.getD j ⟨0, 0⟩).value ∧
        ∀ k1 k2, k1 < k2 →
          k2 < getGroupSize (groupIndexer cmp true entries).out
            ((groupIndexer cmp true entries).dest.getD j ⟨0, 0⟩).value →
          getGroupElem (groupIndexer cmp true entries).out
            ((groupIndexer cmp true entries).dest.getD j ⟨0, 0⟩).value k1 ≠
          getGroupElem (groupIndexer cmp true entries).out
            ((groupIndexer cmp true entries).dest.getD j ⟨0, 0⟩).value k2)) ∧
    ((groupIndexer directCmp true exC6).dest = [⟨7, 0⟩] ∧
      (groupIndexer directCmp true exC6).elem_no = 1 ∧
      getGroupSize (groupIndexer directCmp true exC6).out 0 = 2 ∧
      getGroupElem (groupIndexer directCmp true exC6).out 0 0 = 3 ∧
      getGroupElem (groupIndexer directCmp true exC6).out 0 1 = 5) := by
  constructor
  · rcases entries with _ | ⟨l0, rest⟩
    · constructor
      · intro j1 j2 h12 hj2
        simp [groupIndexer] at hj2
      · intro j hj
        simp [groupIndexer] at hj
    · have hinit : GInv cmp (groupInit l0) := by
        refine ⟨rfl, by simp [groupInit], rfl, by simp [groupInit], ?_, ?_, ?_, ?_, ?_, ?_⟩
        · simp [groupInit]
        · intro j hj
          simp [groupInit] at hj
        · intro j hj
          simp [groupInit] at hj
        · intro j hj
          simp [groupInit] at hj
        · intro j1 j2 h12 hj2
          simp [groupInit] at hj2
          omega
        · simp [groupInit]
          exact hc.refl0 l0.key
      have hch := pairwise_keys_chain cmp rest l0 hsorted
      simp only [List.length_cons] at hlen32
      have hfold := groupFold_inv cmp hc rest (groupInit l0) l0.key hinit
        (by simp [groupInit]; exact hc.refl0 l0.key)
        (by simp [groupInit]; omega)
        hch
      have hfin := groupFinish_inv cmp _ hfold.1 hfold.2
      have hdest : (groupIndexer cmp true (l0 :: rest)).dest =
          (groupFinish true (rest.foldl (groupStep cmp true) (groupInit l0))).dest := rfl
      have hout : (groupIndexer cmp true (l0 :: rest)).out =
          (groupFinish true (rest.foldl (groupStep cmp true) (groupInit l0))).out := rfl
      constructor
      · intro j1 j2 h12 hj2
        rw [hdest] at hj2 ⊢
        rw [hfin.1] at hj2 ⊢
        exact (hfold.1).hkeys j1 j2 h12 hj2
      · intro j hj
        rw [hdest] at hj ⊢
        rw [hout]
        refine ⟨hfin.2.2.1 j hj, ?_⟩
        intro k1 k2 hk12 hk2
        have := hfin.2.2.2 j hj k1 k2 hk12 hk2
        omega
  · refine ⟨?_, ?_, ?_, ?_, ?_⟩ <;> decide

/-- Whether some adjacent pair of keys is out of order (the condition
that triggers the 'indexer must be sorted' log line). -/
def hasAdjInvB (cmp : Nat → Nat → Int) : List Nat → Bool
  | a :: b :: r => (decide (cmp b a < 0)) || hasAdjInvB cmp (b :: r)
  | _ => false

theorem groupStep_errors_mono (cmp : Nat → Nat → Int) (dedup : Bool)
    (st : GroupSt) (l : LINE) :
    st.errors ≤ (groupStep cmp dedup st l).errors := by
  unfold groupStep
  by_cases hcm : cmp l.key st.last_key = 0 <;>
    by_cases hlt : cmp l.key st.last_key < 0 <;>
      simp [hcm, hlt]

theorem groupFold_errors_mono (cmp : Nat → Nat → Int) (dedup : Bool) :
    ∀ (rest : List LINE) (st : GroupSt),
    st.errors ≤ (rest.foldl (groupStep cmp dedup) st).errors := by
  intro rest
  induction rest with
  | nil => intro st; simp
  | cons l rest' ih =>
      intro st
      simp only [List.foldl_cons]
      exact le_trans (groupStep_errors_mono cmp dedup st l) (ih _)

theorem groupStep_lastkey (cmp : Nat → Nat → Int) (hc : IsKeyCmp cmp)
    (dedup : Bool) (st : GroupSt) (l : LINE) :
    cmp l.key (groupStep cmp dedup st l).last_key = 0 := by
  unfold groupStep
  by_cases hcm : cmp l.key st.last_key = 0
  · simp [hcm]
  · simp [hcm]
    exact hc.refl0 l.key

theorem groupFold_errors_pos (cmp : Nat → Nat → Int) (hc : IsKeyCmp cmp)
    (dedup : Bool) :
    ∀ (rest : List LINE) (st : GroupSt) (prevKey : Nat),
    cmp prevKey st.last_key = 0 →
    hasAdjInvB cmp (prevKey :: rest.map LINE.key) = true →
    st.errors < (rest.foldl (groupStep cmp dedup) st).errors := by
  intro rest
  induction rest with
  | nil =>
      intro st prevKey _ hinv
      simp [hasAdjInvB] at hinv
  | cons l rest' ih =>
      intro st prevKey hprev hinv
      rw [List.map_cons, hasAdjInvB] at hinv
      simp only [List.foldl_cons]
      rcases Bool.or_eq_true_iff.mp hinv with h | h
      · have hlt : cmp l.key prevKey < 0 := of_decide_eq_true h
        have hcmv : cmp l.key st.last_key < 0 :=
          hc.lt_le_trans _ _ _ hlt (by omega)
        have hstep : (groupStep cmp dedup st l).errors = st.errors + 1 := by
          unfold groupStep
          have hne : ¬cmp l.key st.last_key = 0 := by omega
          simp [hne, hcmv]
        have := groupFold_errors_mono cmp dedup rest' (groupStep cmp dedup st l)
        omega
      · have h1 := ih (groupStep cmp dedup st l) l.key
          (groupStep_lastkey cmp hc dedup st l) h
        have h2 := groupStep_errors_mono cmp dedup st l
        omega

theorem groupStep_len (cmp : Nat → Nat → Int) (dedup : Bool) (st : GroupSt)
    (l : LINE) (h : st.dest.length = st.block_no) :
    (groupStep cmp dedup st l).dest.length = (groupStep cmp dedup st l).block_no := by
  unfold groupStep
  by_cases hcm : cmp l.key st.last_key = 0 <;> simp [hcm, h]

theorem groupFold_len (cmp : Nat → Nat → Int) (dedup : Bool) :
    ∀ (rest : List LINE) (st : GroupSt),
    st.dest.length = st.block_no →
    (rest.foldl (groupStep cmp dedup) st).dest.length =
      (rest.foldl (groupStep cmp dedup) st).block_no := by
  intro rest
  induction rest with
  | nil => intro st h; simpa using h
  | cons l rest' ih =>
      intro st h
      simp only [List.foldl_cons]
      exact ih _ (groupStep_len cmp dedup st l h)

/-- Claim C2, amended: grouping an unsorted indexer logs at least one
error but continues and produces output (index entries, one per group,
with elem_no set accordingly). -/
theorem C2_unsorted_group_logs_and_continues (cmp : Nat → Nat → Int)
    (hc : IsKeyCmp cmp) (dedup : Bool) (entries : List LINE)
    (hinv : hasAdjInvB cmp (entries.map LINE.key) = true) :
    0 < (groupIndexer cmp dedup entries).errors ∧
    (groupIndexer cmp dedup entries).dest.length =
      (groupIndexer cmp dedup entries).elem_no ∧
    0 < (groupIndexer cmp dedup entries).elem_no := by
  rcases entries with _ | ⟨l0, rest⟩
  · simp [hasAdjInvB] at hinv
  · rw [List.map_cons] at hinv
    have herr := groupFold_errors_pos cmp hc dedup rest (groupInit l0) l0.key
      (by simp [groupInit]; exact hc.refl0 l0.key) hinv
    have hlen := groupFold_len cmp dedup rest (groupInit l0) (by simp [groupInit])
    have herr2 : (groupIndexer cmp dedup (l0 :: rest)).errors =
        (rest.foldl (groupStep cmp dedup) (groupInit l0)).errors := by
      show (groupFinish dedup _).errors = _
      unfold groupFinish
      simp
    have hdest2 : (groupIndexer cmp dedup (l0 :: rest)).dest =
        (rest.foldl (groupStep cmp dedup) (groupInit l0)).dest := by
      show (groupFinish dedup _).dest = _
      unfold groupFinish
      simp
    have hel2 : (groupIndexer cmp dedup (l0 :: rest)).elem_no =
        (rest.foldl (groupStep cmp dedup) (groupInit l0)).block_no := by
      show (groupFinish dedup _).block_no = _
      unfold groupFinish
      simp
    refine ⟨?_, ?_, ?_⟩
    · rw [herr2]
      have : (groupInit l0).errors = 0 := rfl
      omega
    · rw [hdest2, hel2]
      exact hlen
    · rw [hel2]
      have hmono : ∀ (ls : List LINE) (st : GroupSt),
          st.block_no ≤ (ls.foldl (groupStep cmp dedup) st).block_no := by
        intro ls
        induction ls with
        | nil => intro st; simp
        | cons x ls' ihm =>
            intro st
            simp only [List.foldl_cons]
            refine le_trans ?_ (ihm _)
            unfold groupStep
            by_cases hcm : cmp x.key st.last_key = 0 <;> simp [hcm]
      have := hmono rest (groupInit l0)
      have : (groupInit l0).block_no = 1 := rfl
      omega

/-- Claim C2, counterexample at a concrete unsorted indexer: grouping
[(2,20), (1,10)] logs one error (errors = 1) yet produces a complete
output: two index entries and two value blocks. -/
theorem C2_unsorted_group_output_exists :
    (groupIndexer directCmp false [⟨2, 20⟩, ⟨1, 10⟩]).errors = 1 ∧
    (groupIndexer directCmp false [⟨2, 20⟩, ⟨1, 10⟩]).dest = [⟨2, 0⟩, ⟨1, 12⟩] ∧
    (groupIndexer directCmp false [⟨2, 20⟩, ⟨1, 10⟩]).elem_no = 2 ∧
    getGroupSize (groupIndexer directCmp false [⟨2, 20⟩, ⟨1, 10⟩]).out 0 = 1 ∧
    getGroupElem (groupIndexer directCmp false [⟨2, 20⟩, ⟨1, 10⟩]).out 0 0 = 20 ∧
    getGroupSize (groupIndexer directCmp false [⟨2, 20⟩, ⟨1, 10⟩]).out 12 = 1 ∧
    getGroupElem (groupIndexer directCmp false [⟨2, 20⟩, ⟨1, 10⟩]).out 12 0 = 10 := by
  refine ⟨?_, ?_, ?_, ?_, ?_, ?_, ?_⟩ <;> decide

theorem exC6_sorted : ∀ i j : Nat, i < j → j < exC6.length →
    directCmp (keyAt exC6 i) (keyAt exC6 j) ≤ 0 := by
  intro i j hij hj
  simp only [exC6, List.length_cons, List.length_nil] at hj
  interval_cases j <;> interval_cases i <;> decide

/-- Witness for C6 at the collaborator example (7,3),(7,3),(7,5): a single
group for key 7 whose block is [3, 5]. -/
theorem C6_group_dedup_witness :
    (groupIndexer directCmp true exC6).dest = [⟨7, 0⟩] ∧
    (groupIndexer directCmp true exC6).elem_no = 1 ∧
    getGroupSize (groupIndexer directCmp true exC6).out 0 = 2 ∧
    getGroupElem (groupIndexer directCmp true exC6).out 0 0 = 3 ∧
    getGroupElem (groupIndexer directCmp true exC6).out 0 1 = 5 :=
  (C6_group_dedup directCmp directCmp_isKeyCmp exC6 (by decide) exC6_sorted).2

/-- Witness for the amended C2 theorem at the concrete unsorted indexer. -/
theorem C2_unsorted_group_logs_and_continues_witness :
    0 < (groupIndexer directCmp false [⟨2, 20⟩, ⟨1, 10⟩]).errors ∧
    (groupIndexer directCmp false [⟨2, 20⟩, ⟨1, 10⟩]).dest.length =
      (groupIndexer directCmp false [⟨2, 20⟩, ⟨1, 10⟩]).elem_no ∧
    0 < (groupIndexer directCmp false [⟨2, 20⟩, ⟨1, 10⟩]).elem_no :=
  C2_unsorted_group_logs_and_continues directCmp directCmp_isKeyCmp false
    [⟨2, 20⟩, ⟨1, 10⟩] (by decide)

/- ### C5: sortIndexer (external merge sort) -/


def MAX_FILE_LINES : Nat := 8388608

/-- Entry of the values array of the merge heap at branch index b. -/
def valAt (values : List LINE) (b : Nat) : LINE := values.getD b ⟨0, 0⟩

/-- The key of the line referenced by heap slot p
(h->values[h->heap[p]].key in the C code). -/
def hKey (values : List LINE) (heap : List Nat) (p : Nat) : Nat :=
  (valAt values (heap.getD p 0)).key

/-- The index `smallest` computed by heapify (indexer.c lines 68-74):
elem, then its left child if strictly smaller, then the right child if
strictly smaller than the current smallest. -/
def smallestOf (cmp : Nat → Nat → Int) (values : List LINE) (heap : List Nat)
    (elem : Nat) : Nat :=
  let l := 2 * elem + 1
  let r := 2 * elem + 2
  let s1 := if l < heap.length ∧ cmp (hKey values heap l) (hKey values heap elem) < 0
    then l else elem
  if r < heap.length ∧ cmp (hKey values heap r) (hKey values heap s1) < 0 then r else s1

/-- Model of heapify (indexer.c lines 68-84): sift the slot elem down,
swapping with the smaller child while the min-heap property is violated.
Fuel only bounds the recursion depth (the C recursion terminates because
smallest > elem); none is never returned when fuel ≥ heap length + 1 - elem. -/
def heapifyF (cmp : Nat → Nat → Int) (values : List LINE) :
    Nat → List Nat → Nat → Option (List Nat)
  | 0, _, _ => none
  | fuel + 1, heap, elem =>
    let smallest := smallestOf cmp values heap elem
    if smallest ≠ elem then
      heapifyF cmp values fuel
        ((heap.set elem (heap.getD smallest 0)).set smallest (heap.getD elem 0)) smallest
    else some heap

/-- Model of the sift-up loop of pushHeap (indexer.c lines 118-127). -/
def pushUpF (cmp : Nat → Nat → Int) (values : List LINE) :
    Nat → List Nat → Nat → Option (List Nat)
  | 0, _, _ => none
  | fuel + 1, heap, pos =>
    if pos ≠ 0 ∧ cmp (hKey values heap ((pos - 1) / 2)) (hKey values heap pos) > 0 then
      pushUpF cmp values fuel
        ((heap.set pos (heap.getD ((pos - 1) / 2) 0)).set ((pos - 1) / 2) (heap.getD pos 0))
        ((pos - 1) / 2)
    else some heap

/-- Model of pushHeap (indexer.c lines 112-128): append val at position
size, then sift up. The fuel heap.length + 1 is ample: the loop position
strictly decreases from heap.length. -/
def pushHeapF (cmp : Nat → Nat → Int) (values : List LINE) (heap : List Nat)
    (val : Nat) : Option (List Nat) :=
  pushUpF cmp values (heap.length + 1) (heap ++ [val]) heap.length

/-- Model of popHeap (indexer.c lines 94-103): return heap[0]; if the
heap is still non-empty move the last slot to the root and heapify. -/
def popHeapF (cmp : Nat → Nat → Int) (values : List LINE) (heap : List Nat) :
    Option (Nat × List Nat) :=
  match heap with
  | [] => none
  | a :: rest =>
    if rest.isEmpty then some (a, [])
    else
      match heapifyF cmp values (rest.length + 1) (rest.getLastD 0 :: rest.dropLast) 0 with
      | none => none
      | some h => some (a, h)

/-- State of the k-way merge loop of sortIndexer: the per-branch value
buffer h.values, the unread remainder of each sorted run, the heap array
and the output written back to the index file. -/
structure MergeSt where
  values : List LINE
  runs : List (List LINE)
  heap : List Nat
  out : List LINE

/-- Model of the merge loop of sortIndexer (indexer.c lines 311-319):
while the heap is non-empty, pop the branch with the smallest current
line, write that line out, and read the branch's next line (pushing the
branch back) if its run is not exhausted. -/
def mergeLoopF (cmp : Nat → Nat → Int) : Nat → MergeSt → Option (List LINE)
  | 0, _ => none
  | fuel + 1, st =>
    if st.heap.isEmpty then some st.out
    else
      match popHeapF cmp st.values st.heap with
      | none => none
      | some (branch, h) =>
        let v := valAt st.values branch
        match st.runs.getD branch [] with
        | [] => mergeLoopF cmp fuel { st with heap := h, out := st.out ++ [v] }
        | x :: rest =>
          let values := st.values.set branch x
          match pushHeapF cmp values h branch with
          | none => none
          | some h2 =>
            mergeLoopF cmp fuel
              { values := values, runs := st.runs.set branch rest, heap := h2,
                out := st.out ++ [v] }

/-- One iteration of the heap-filling loop of sortIndexer (indexer.c
lines 305-309): read the first line of run j into values[j] and push j,
skipping the branch if the run is empty. -/
def initStep (cmp : Nat → Nat → Int) (chunks : List (List LINE))
    (st : List LINE × List (List LINE) × Option (List Nat)) (j : Nat) :
    List LINE × List (List LINE) × Option (List Nat) :=
  match st.2.2 with
  | none => st
  | some heap =>
    match chunks.getD j [] with
    | [] => st
    | x :: rest =>
      (st.1.set j x, st.2.1.set j rest, pushHeapF cmp (st.1.set j x) heap j)

/-- The chunk sizes read by the run-cutting loop of sortIndexer
(indexer.c line 287): size = elem_no / k + (elem_no % k > j ? 1 : 0). -/
def chunkSizes (N k : Nat) : List Nat :=
  (List.range k).map (fun j => N / k + if N % k > j then 1 else 0)

/-- Cutting the index file into consecutive runs of the given sizes. -/
def splitChunks : List LINE → List Nat → List (List LINE)
  | _, [] => []
  | l, s :: ss => l.take s :: splitChunks (l.drop s) ss

/-- The in-memory qsort of one run by compareLines (indexer.c lines
150-155, 292-293): sort by cmp on the keys. -/
def sortChunk (cmp : Nat → Nat → Int) (l : List LINE) : List LINE :=
  l.insertionSort (fun a b => cmp a.key b.key ≤ 0)

/-- Model of sortIndexer (indexer.c lines 275-327): cut the index into
k = ⌈N / MAX_FILE_LINES⌉ runs, sort each in memory, then k-way merge
through a min-heap indexed by run number. none models the crashing
paths: with N = 0 the run count k is 0 and `i->elem_no / k` (line 279)
divides by zero; with N % k ≠ 0 the first runs hold N / k + 1 lines but
the buffer is malloc'd for N / k lines (line 279), so fread (line 289)
overflows it. -/
def sortIndexer (cmp : Nat → Nat → Int) (entries : List LINE) : Option (List LINE) :=
  let N := entries.length
  let k := (N + MAX_FILE_LINES - 1) / MAX_FILE_LINES
  if k = 0 then none
  else if N % k ≠ 0 then none
  else
    let chunks := (splitChunks entries (chunkSizes N k)).map (sortChunk cmp)
    let init := (List.range k).foldl (initStep cmp chunks)
      (List.replicate k ⟨0, 0⟩, List.replicate k [], some [])
    match init.2.2 with
    | none => none
    | some heap =>
      mergeLoopF cmp (N + 1) { values := init.1, runs := init.2.1, heap := heap, out := [] }

/- ### Generic list helpers -/

theorem getD_set_self {α} : ∀ (l : List α) (i : Nat) (a d : α), i < l.length →
    (l.set i a).getD i d = a
  | [], i, _, _, h => by simp at h
  | _ :: _, 0, _, _, _ => rfl
  | _ :: t, i + 1, a, d, h => by
    simp only [List.set_cons_succ, List.getD_cons_succ]
    exact getD_set_self t i a d (by simpa using h)

theorem getD_set_ne {α} : ∀ (l : List α) (i j : Nat) (a d : α), i ≠ j →
    (l.set i a).getD j d = l.getD j d
  | [], _, _, _, _, _ => rfl
  | _ :: _, 0, 0, _, _, h => absurd rfl h
  | _ :: _, 0, _ + 1, _, _, _ => rfl
  | _ :: _, _ + 1, 0, _, _, _ => rfl
  | _ :: t, i + 1, j + 1, a, d, h => by
    simp only [List.set_cons_succ, List.getD_cons_succ]
    exact getD_set_ne t i j a d (fun hh => h (by omega))

theorem getD_concat_lt {α} : ∀ (l : List α) (x d : α) (j : Nat), j < l.length →
    (l ++ [x]).getD j d = l.getD j d
  | [], _, _, _, h => by simp at h
  | _ :: _, _, _, 0, _ => rfl
  | _ :: t, x, d, j + 1, h => by
    simp only [List.cons_append, List.getD_cons_succ]
    exact getD_concat_lt t x d j (by simpa using h)

theorem getD_concat_self {α} : ∀ (l : List α) (x d : α),
    (l ++ [x]).getD l.length d = x
  | [], _, _ => rfl
  | _ :: t, x, d => by
    simp only [List.cons_append, List.length_cons, List.getD_cons_succ]
    exact getD_concat_self t x d

theorem getD_mem_of_lt {α} : ∀ (l : List α) (i : Nat) (d : α), i < l.length →
    l.getD i d ∈ l
  | [], _, _, h => by simp at h
  | a :: _, 0, _, _ => List.mem_cons_self a _
  | _ :: t, i + 1, d, h =>
    List.mem_cons_of_mem _ (getD_mem_of_lt t i d (by simpa using h))

theorem getD_dropLast {α} : ∀ (l : List α) (i : Nat) (d : α), i + 1 < l.length →
    l.dropLast.getD i d = l.getD i d
  | [], _, _, h => by simp at h
  | [a], i, d, h => by simp at h
  | a :: b :: t, 0, d, _ => by
    rw [List.dropLast_cons₂]
    rfl
  | a :: b :: t, i + 1, d, h => by
    rw [List.dropLast_cons₂]
    simp only [List.getD_cons_succ]
    exact getD_dropLast (b :: t) i d (by simpa using h)

theorem getLastD_eq_getD {α} : ∀ (l : List α) (d : α),
    l.getLastD d = l.getD (l.length - 1) d
  | [], _ => rfl
  | [a], _ => rfl
  | a :: b :: t, d => by
    rw [List.getLastD_cons, getLastD_eq_getD (b :: t) a]
    simp only [List.length_cons, Nat.add_sub_cancel, List.getD_cons_succ]
    have hlt : t.length < (b :: t).length := by simp
    rw [List.getD_eq_getElem _ _ hlt, List.getD_eq_getElem _ _ hlt]

theorem cons_set_perm {α} (d a : α) : ∀ (t : List α) (m : Nat), m < t.length →
    List.Perm (t.getD m d :: t.set m a) (a :: t)
  | [], m, h => by simp at h
  | b :: s, 0, _ => by
    simp only [List.getD_cons_zero, List.set_cons_zero]
    exact List.Perm.swap a b s
  | b :: s, m + 1, h => by
    simp only [List.getD_cons_succ, List.set_cons_succ]
    exact (List.Perm.swap b (s.getD m d) (s.set m a)).trans
      (((cons_set_perm d a s m (by simpa using h)).cons b).trans (List.Perm.swap a b s))

theorem set_set_swap_perm {α} (d : α) : ∀ (l : List α) (i j : Nat),
    i < l.length → j < l.length →
    List.Perm ((l.set i (l.getD j d)).set j (l.getD i d)) l
  | [], i, _, hi, _ => by simp at hi
  | x :: t, 0, 0, _, _ => by simp
  | x :: t, 0, m + 1, _, hj => by
    simp only [List.getD_cons_zero, List.getD_cons_succ, List.set_cons_zero,
      List.set_cons_succ]
    exact cons_set_perm d x t m (by simpa using hj)
  | x :: t, n + 1, 0, hi, _ => by
    simp only [List.getD_cons_zero, List.getD_cons_succ, List.set_cons_zero,
      List.set_cons_succ]
    exact cons_set_perm d x t n (by simpa using hi)
  | x :: t, n + 1, m + 1, hi, hj => by
    simp only [List.getD_cons_succ, List.set_cons_succ]
    exact (set_set_swap_perm d t n m (by simpa using hi) (by simpa using hj)).cons x

theorem flatMap_perm {α β} (f : α → List β) {l₁ l₂ : List α} (h : List.Perm l₁ l₂) :
    List.Perm (l₁.flatMap f) (l₂.flatMap f) := by
  induction h with
  | nil => exact List.Perm.refl _
  | cons x _ ih => simpa [List.flatMap_cons] using ih.append_left (f x)
  | swap x y l =>
    simp only [List.flatMap_cons]
    rw [← List.append_assoc, ← List.append_assoc]
    exact (List.perm_append_comm).append_right _
  | trans _ _ ih1 ih2 => exact ih1.trans ih2

theorem flatMap_congr_mem {α β} (f g : α → List β) : ∀ (l : List α),
    (∀ b ∈ l, f b = g b) → l.flatMap f = l.flatMap g
  | [], _ => rfl
  | a :: t, h => by
    simp only [List.flatMap_cons]
    rw [h a (List.mem_cons_self a t),
      flatMap_congr_mem f g t (fun b hb => h b (List.mem_cons_of_mem a hb))]

theorem map_getD_range {α} (d : α) : ∀ (l : List α),
    (List.range l.length).map (fun i => l.getD i d) = l := by
  intro l
  apply List.ext_getElem
  · simp
  · intro i hi hl
    simp only [List.getElem_map, List.getElem_range]
    rw [List.getD_eq_getElem _ _ hl]

/- ### Heap predicates -/

/-- The min-heap invariant of the C heap in position form: every slot's
line key compares ≤ its children's (parent of slot p is (p-1)/2). -/
def MinHeapP (cmp : Nat → Nat → Int) (values : List LINE) (heap : List Nat) : Prop :=
  ∀ p, 0 < p → p < heap.length →
    cmp (hKey values heap ((p - 1) / 2)) (hKey values heap p) ≤ 0

/-- Heapify precondition: every parent edge holds except possibly the
edges out of slot e. -/
def HeapifyPre1 (cmp : Nat → Nat → Int) (values : List LINE) (heap : List Nat)
    (e : Nat) : Prop :=
  ∀ p, 0 < p → p < heap.length → (p - 1) / 2 ≠ e →
    cmp (hKey values heap ((p - 1) / 2)) (hKey values heap p) ≤ 0

/-- Heapify precondition: when e is not the root, e's parent compares ≤
e's children (so a swap at e cannot break the edge into e). -/
def HeapifyPre2 (cmp : Nat → Nat → Int) (values : List LINE) (heap : List Nat)
    (e : Nat) : Prop :=
  0 < e → ∀ p, 0 < p → p < heap.length → (p - 1) / 2 = e →
    cmp (hKey values heap ((e - 1) / 2)) (hKey values heap p) ≤ 0

theorem smallestOf_eq_elem (cmp : Nat → Nat → Int) (values : List LINE)
    (heap : List Nat) (elem : Nat) (h : smallestOf cmp values heap elem = elem) :
    (2 * elem + 1 < heap.length →
      ¬ cmp (hKey values heap (2 * elem + 1)) (hKey values heap elem) < 0) ∧
    (2 * elem + 2 < heap.length →
      ¬ cmp (hKey values heap (2 * elem + 2)) (hKey values heap elem) < 0) := by
  simp only [smallestOf] at h
  by_cases h1 : 2 * elem + 1 < heap.length ∧
      cmp (hKey values heap (2 * elem + 1)) (hKey values heap elem) < 0
  · rw [if_pos h1] at h
    by_cases h2 : 2 * elem + 2 < heap.length ∧
        cmp (hKey values heap (2 * elem + 2)) (hKey values heap (2 * elem + 1)) < 0
    · rw [if_pos h2] at h; omega
    · rw [if_neg h2] at h; omega
  · rw [if_neg h1] at h
    by_cases h2 : 2 * elem + 2 < heap.length ∧
        cmp (hKey values heap (2 * elem + 2)) (hKey values heap elem) < 0
    · rw [if_pos h2] at h; omega
    · rw [if_neg h2] at h
      constructor
      · intro hl hcl
        exact h1 ⟨hl, hcl⟩
      · intro hr hcr
        exact h2 ⟨hr, hcr⟩

theorem smallestOf_ne_elem (cmp : Nat → Nat → Int) (hc : IsKeyCmp cmp)
    (values : List LINE) (heap : List Nat) (elem : Nat)
    (h : smallestOf cmp values heap elem ≠ elem) :
    (smallestOf cmp values heap elem = 2 * elem + 1 ∨
      smallestOf cmp values heap elem = 2 * elem + 2) ∧
    smallestOf cmp values heap elem < heap.length ∧
    cmp (hKey values heap (smallestOf cmp values heap elem)) (hKey values heap elem) < 0 ∧
    ∀ c, (c = 2 * elem + 1 ∨ c = 2 * elem + 2) → c < heap.length →
      cmp (hKey values heap (smallestOf cmp values heap elem)) (hKey values heap c) ≤ 0 := by
  simp only [smallestOf] at h ⊢
  by_cases h1 : 2 * elem + 1 < heap.length ∧
      cmp (hKey values heap (2 * elem + 1)) (hKey values heap elem) < 0
  · rw [if_pos h1] at h ⊢
    by_cases h2 : 2 * elem + 2 < heap.length ∧
        cmp (hKey values heap (2 * elem + 2)) (hKey values heap (2 * elem + 1)) < 0
    · rw [if_pos h2] at h ⊢
      refine ⟨Or.inr rfl, h2.1, ?_, ?_⟩
      · exact hc.lt_le_trans _ _ _ h2.2 (by omega)
      · intro c hcor hcl
        rcases hcor with hcc | hcc <;> subst hcc
        · omega
        · have := hc.refl0 (hKey values heap (2 * elem + 2)); omega
    · rw [if_neg h2] at h ⊢
      refine ⟨Or.inl rfl, h1.1, h1.2, ?_⟩
      intro c hcor hcl
      rcases hcor with hcc | hcc <;> subst hcc
      · have := hc.refl0 (hKey values heap (2 * elem + 1)); omega
      · have h3 : ¬ cmp (hKey values heap (2 * elem + 2))
            (hKey values heap (2 * elem + 1)) < 0 := fun hcon => h2 ⟨hcl, hcon⟩
        have := hc.antisym (hKey values heap (2 * elem + 2))
          (hKey values heap (2 * elem + 1))
        omega
  · rw [if_neg h1] at h ⊢
    by_cases h2 : 2 * elem + 2 < heap.length ∧
        cmp (hKey values heap (2 * elem + 2)) (hKey values heap elem) < 0
    · rw [if_pos h2] at h ⊢
      refine ⟨Or.inr rfl, h2.1, h2.2, ?_⟩
      intro c hcor hcl
      rcases hcor with hcc | hcc <;> subst hcc
      · have h3 : ¬ cmp (hKey values heap (2 * elem + 1)) (hKey values heap elem) < 0 :=
          fun hcon => h1 ⟨hcl, hcon⟩
        have h4 := hc.antisym (hKey values heap (2 * elem + 1)) (hKey values heap elem)
        have h5 : cmp (hKey values heap elem) (hKey values heap (2 * elem + 1)) ≤ 0 := by
          omega
        have := hc.lt_le_trans _ _ _ h2.2 h5
        omega
      · have := hc.refl0 (hKey values heap (2 * elem + 2)); omega
    · rw [if_neg h2] at h
      omega

theorem heapifyF_correct (cmp : Nat → Nat → Int) (hc : IsKeyCmp cmp)
    (values : List LINE) :
    ∀ fuel heap elem, HeapifyPre1 cmp values heap elem →
      HeapifyPre2 cmp values heap elem →
      elem ≤ heap.length → heap.length + 1 ≤ fuel + elem →
      ∃ h2, heapifyF cmp values fuel heap elem = some h2 ∧
        List.Perm h2 heap ∧ MinHeapP cmp values h2 := by
  intro fuel
  induction fuel with
  | zero =>
    intro heap elem _ _ he hf
    omega
  | succ fuel ih =>
    intro heap elem hp1 hp2 he hf
    by_cases hs : smallestOf cmp values heap elem = elem
    · refine ⟨heap, ?_, List.Perm.refl heap, ?_⟩
      · simp only [heapifyF, hs, ne_eq, not_true_eq_false, if_false]
      · obtain ⟨hl, hr⟩ := smallestOf_eq_elem cmp values heap elem hs
        intro p hp hpl
        by_cases hpe : (p - 1) / 2 = elem
        · have hp2' : p = 2 * elem + 1 ∨ p = 2 * elem + 2 := by omega
        -- p is a child of elem; both violated comparisons are ruled out
          rw [hpe]
          rcases hp2' with hpc | hpc <;> subst hpc
          · have h1 := hl hpl
            have h2 := hc.antisym (hKey values heap (2 * elem + 1)) (hKey values heap elem)
            omega
          · have h1 := hr hpl
            have h2 := hc.antisym (hKey values heap (2 * elem + 2)) (hKey values heap elem)
            omega
        · exact hp1 p hp hpl hpe
    · obtain ⟨hsor, hslen, hcmp, hch⟩ := smallestOf_ne_elem cmp hc values heap elem hs
      set s := smallestOf cmp values heap elem with hsdef
      have hlt : elem < s := by omega
      have helem_lt : elem < heap.length := by omega
      set hh2 := (heap.set elem (heap.getD s 0)).set s (heap.getD elem 0) with hh2def
      have hlen2 : hh2.length = heap.length := by
        rw [hh2def]; simp
      have hgq : ∀ q, q ≠ elem → q ≠ s → hh2.getD q 0 = heap.getD q 0 := by
        intro q hq1 hq2
        rw [hh2def, getD_set_ne _ s q _ _ (Ne.symm hq2), getD_set_ne _ elem q _ _ (Ne.symm hq1)]
      have hgs : hh2.getD s 0 = heap.getD elem 0 := by
        rw [hh2def]
        exact getD_set_self _ s _ _ (by simpa using hslen)
      have hge : hh2.getD elem 0 = heap.getD s 0 := by
        rw [hh2def, getD_set_ne _ s elem _ _ (by omega)]
        exact getD_set_self _ elem _ _ helem_lt
      have hkq : ∀ q, q ≠ elem → q ≠ s → hKey values hh2 q = hKey values heap q := by
        intro q hq1 hq2
        unfold hKey
        rw [hgq q hq1 hq2]
      have hks : hKey values hh2 s = hKey values heap elem := by
        unfold hKey; rw [hgs]
      have hke : hKey values hh2 elem = hKey values heap s := by
        unfold hKey; rw [hge]
      have hspar : (s - 1) / 2 = elem := by omega
      have hq1new : HeapifyPre1 cmp values hh2 s := by
        intro p hp hpl hpne
        rw [hlen2] at hpl
        by_cases hg : (p - 1) / 2 = elem
        · by_cases hps : p = s
          · subst hps
            rw [hg, hke, hks]
            omega
          · have hpch : p = 2 * elem + 1 ∨ p = 2 * elem + 2 := by omega
            rw [hg, hke, hkq p (by omega) hps]
            exact hch p hpch hpl
        · by_cases hpe : p = elem
          · have hppos : 0 < elem := by omega
            rw [hpe, hke, hkq ((elem - 1) / 2) (by omega) (by omega)]
            exact hp2 hppos s (by omega) hslen hspar
          · have hpns : p ≠ s := by
              intro hcon
              subst hcon
              exact hg hspar
            rw [hkq p hpe hpns, hkq ((p - 1) / 2) hg hpne]
            exact hp1 p hp hpl hg
      have hq2new : HeapifyPre2 cmp values hh2 s := by
        intro hs0 p hp hpl hpar
        rw [hlen2] at hpl
        rw [hspar, hke]
        have hpgt : s < p := by omega
        rw [hkq p (by omega) (by omega)]
        have := hp1 p hp hpl (by omega)
        rwa [hpar] at this
      have hrec := ih hh2 s hq1new hq2new (by omega) (by omega)
      obtain ⟨h3, heq3, hperm3, hmin3⟩ := hrec
      refine ⟨h3, ?_, ?_, hmin3⟩
      · have hstep : heapifyF cmp values (fuel + 1) heap elem
            = heapifyF cmp values fuel hh2 s := by
          simp only [heapifyF]
          rw [← hsdef, if_pos hs]
        rw [hstep]
        exact heq3
      · exact hperm3.trans (set_set_swap_perm 0 heap elem s helem_lt hslen)

theorem root_min (cmp : Nat → Nat → Int) (hc : IsKeyCmp cmp) (values : List LINE)
    (heap : List Nat) (hmin : MinHeapP cmp values heap) :
    ∀ p, p < heap.length → cmp (hKey values heap 0) (hKey values heap p) ≤ 0 := by
  intro p
  induction p using Nat.strong_induction_on with
  | _ p ihp =>
    intro hp
    rcases Nat.eq_zero_or_pos p with h0 | h0
    · subst h0
      have := hc.refl0 (hKey values heap 0)
      omega
    · have hpar := hmin p h0 hp
      have hup := ihp ((p - 1) / 2) (by omega) (by omega)
      exact hc.trans _ _ _ hup hpar

theorem root_min_mem (cmp : Nat → Nat → Int) (hc : IsKeyCmp cmp) (values : List LINE)
    (heap : List Nat) (hmin : MinHeapP cmp values heap) (b : Nat) (hb : b ∈ heap) :
    cmp (valAt values (heap.getD 0 0)).key (valAt values b).key ≤ 0 := by
  obtain ⟨q, hq⟩ := List.get_of_mem hb
  have hql : (q : Nat) < heap.length := q.isLt
  have := root_min cmp hc values heap hmin q hql
  unfold hKey at this
  rwa [List.getD_eq_getElem _ _ hql, ← List.get_eq_getElem, hq] at this

theorem MinHeapP_congr (cmp : Nat → Nat → Int) (v v' : List LINE) (heap : List Nat)
    (hagree : ∀ b ∈ heap, valAt v' b = valAt v b) (h : MinHeapP cmp v heap) :
    MinHeapP cmp v' heap := by
  intro p hp hpl
  unfold hKey
  rw [hagree _ (getD_mem_of_lt heap ((p - 1) / 2) 0 (by omega)),
    hagree _ (getD_mem_of_lt heap p 0 hpl)]
  exact h p hp hpl

/-- Sift-up precondition: every parent edge holds except possibly the
edge into slot pos. -/
def PushPre1 (cmp : Nat → Nat → Int) (values : List LINE) (heap : List Nat)
    (pos : Nat) : Prop :=
  ∀ p, 0 < p → p < heap.length → p ≠ pos →
    cmp (hKey values heap ((p - 1) / 2)) (hKey values heap p) ≤ 0

/-- Sift-up precondition: when pos is not the root, pos's parent
compares ≤ pos's children (so a swap at pos cannot break the edges out
of pos). -/
def PushPre2 (cmp : Nat → Nat → Int) (values : List LINE) (heap : List Nat)
    (pos : Nat) : Prop :=
  0 < pos → ∀ p, 0 < p → p < heap.length → (p - 1) / 2 = pos →
    cmp (hKey values heap ((pos - 1) / 2)) (hKey values heap p) ≤ 0

theorem pushUpF_correct (cmp : Nat → Nat → Int) (hc : IsKeyCmp cmp)
    (values : List LINE) :
    ∀ fuel heap pos, PushPre1 cmp values heap pos → PushPre2 cmp values heap pos →
      pos < heap.length → pos + 1 ≤ fuel →
      ∃ h2, pushUpF cmp values fuel heap pos = some h2 ∧
        List.Perm h2 heap ∧ MinHeapP cmp values h2 := by
  intro fuel
  induction fuel with
  | zero =>
    intro heap pos _ _ _ hf
    omega
  | succ fuel ih =>
    intro heap pos hp1 hp2 hpos hf
    by_cases hcond : pos ≠ 0 ∧
        cmp (hKey values heap ((pos - 1) / 2)) (hKey values heap pos) > 0
    · obtain ⟨hpos0, hgt⟩ := hcond
      set g := (pos - 1) / 2 with hgdef
      have hglt : g < pos := by omega
      have hglen : g < heap.length := by omega
      set hh2 := (heap.set pos (heap.getD g 0)).set g (heap.getD pos 0) with hh2def
      have hlen2 : hh2.length = heap.length := by rw [hh2def]; simp
      have hgq : ∀ q, q ≠ pos → q ≠ g → hh2.getD q 0 = heap.getD q 0 := by
        intro q hq1 hq2
        rw [hh2def, getD_set_ne _ g q _ _ (Ne.symm hq2), getD_set_ne _ pos q _ _ (Ne.symm hq1)]
      have hgg : hh2.getD g 0 = heap.getD pos 0 := by
        rw [hh2def]
        exact getD_set_self _ g _ _ (by simpa using hglen)
      have hgp : hh2.getD pos 0 = heap.getD g 0 := by
        rw [hh2def, getD_set_ne _ g pos _ _ (by omega)]
        exact getD_set_self _ pos _ _ hpos
      have hkq : ∀ q, q ≠ pos → q ≠ g → hKey values hh2 q = hKey values heap q := by
        intro q hq1 hq2
        unfold hKey
        rw [hgq q hq1 hq2]
      have hkg : hKey values hh2 g = hKey values heap pos := by
        unfold hKey; rw [hgg]
      have hkp : hKey values hh2 pos = hKey values heap g := by
        unfold hKey; rw [hgp]
      have hlt0 : cmp (hKey values heap pos) (hKey values heap g) < 0 := by
        have := hc.antisym (hKey values heap pos) (hKey values heap g)
        omega
      have hq1new : PushPre1 cmp values hh2 g := by
        intro p hp hpl hpg
        rw [hlen2] at hpl
        by_cases hps : p = pos
        · rw [hps, ← hgdef, hkg, hkp]
          omega
        · by_cases hq : (p - 1) / 2 = g
          · rw [hq, hkg, hkq p hps hpg]
            have hedge : cmp (hKey values heap g) (hKey values heap p) ≤ 0 := by
              have := hp1 p hp hpl hps
              rwa [hq] at this
            have := hc.lt_le_trans _ _ _ hlt0 hedge
            omega
          · by_cases hqp : (p - 1) / 2 = pos
            · rw [hqp, hkp, hkq p hps hpg]
              exact hp2 (by omega) p hp hpl hqp
            · rw [hkq p hps hpg, hkq ((p - 1) / 2) hqp hq]
              exact hp1 p hp hpl hps
      have hq2new : PushPre2 cmp values hh2 g := by
        intro hg0 p hp hpl hpar
        rw [hlen2] at hpl
        have hpgt : g < p := by omega
        rw [hkq ((g - 1) / 2) (by omega) (by omega)]
        by_cases hps : p = pos
        · rw [hps, hkp]
          exact hp1 g hg0 hglen (by omega)
        · rw [hkq p hps (by omega)]
          have h1 := hp1 g hg0 hglen (by omega)
          have h2 := hp1 p hp hpl hps
          rw [hpar] at h2
          exact hc.trans _ _ _ h1 h2
      have hrec := ih hh2 g hq1new hq2new (by omega) (by omega)
      obtain ⟨h3, heq3, hperm3, hmin3⟩ := hrec
      refine ⟨h3, ?_,
        hperm3.trans (set_set_swap_perm 0 heap pos g hpos hglen), hmin3⟩
      have hstep : pushUpF cmp values (fuel + 1) heap pos
          = pushUpF cmp values fuel hh2 g := by
        simp only [pushUpF]
        rw [← hgdef, if_pos ⟨hpos0, hgt⟩]
      rw [hstep]
      exact heq3
    · refine ⟨heap, ?_, List.Perm.refl heap, ?_⟩
      · simp only [pushUpF]
        rw [if_neg hcond]
      · intro p hp hpl
        by_cases hps : p = pos
        · rw [hps]
          have hpos0 : pos ≠ 0 := by omega
          by_contra hcon
          exact hcond ⟨hpos0, by omega⟩
        · exact hp1 p hp hpl hps

theorem pushHeapF_correct (cmp : Nat → Nat → Int) (hc : IsKeyCmp cmp)
    (values : List LINE) (heap : List Nat) (val : Nat)
    (hmin : MinHeapP cmp values heap) :
    ∃ h2, pushHeapF cmp values heap val = some h2 ∧
      List.Perm h2 (heap ++ [val]) ∧ MinHeapP cmp values h2 := by
  have hlen : (heap ++ [val]).length = heap.length + 1 := by simp
  have hp1 : PushPre1 cmp values (heap ++ [val]) heap.length := by
    intro p hp hpl hpne
    rw [hlen] at hpl
    have hplt : p < heap.length := by omega
    unfold hKey
    rw [getD_concat_lt _ _ _ p hplt, getD_concat_lt _ _ _ ((p - 1) / 2) (by omega)]
    exact hmin p hp hplt
  have hp2 : PushPre2 cmp values (heap ++ [val]) heap.length := by
    intro h0 p hp hpl hpar
    rw [hlen] at hpl
    omega
  exact pushUpF_correct cmp hc values (heap.length + 1) (heap ++ [val]) heap.length
    hp1 hp2 (by simp) (by omega)

theorem dropLast_append_getLastD {α} : ∀ (l : List α) (d : α), l ≠ [] →
    l.dropLast ++ [l.getLastD d] = l
  | [], _, h => absurd rfl h
  | [a], _, _ => by simp
  | a :: b :: t, d, _ => by
    rw [List.dropLast_cons₂, List.getLastD_cons]
    simp only [List.cons_append]
    rw [dropLast_append_getLastD (b :: t) a (by simp)]

theorem popHeapF_correct (cmp : Nat → Nat → Int) (hc : IsKeyCmp cmp)
    (values : List LINE) (heap : List Nat) (hne : heap ≠ [])
    (hmin : MinHeapP cmp values heap) :
    ∃ h2, popHeapF cmp values heap = some (heap.getD 0 0, h2) ∧
      List.Perm (heap.getD 0 0 :: h2) heap ∧ MinHeapP cmp values h2 := by
  match heap, hne with
  | a :: rest, _ =>
    cases rest with
    | nil =>
      refine ⟨[], rfl, List.Perm.refl [a], ?_⟩
      intro p hp hpl
      simp at hpl
    | cons b t =>
      have hrne : (b :: t) ≠ [] := by simp
      set new0 := (b :: t).getLastD 0 :: (b :: t).dropLast with hnew0
      have hlen0 : new0.length = (b :: t).length := by
        rw [hnew0]
        simp [List.length_dropLast]
      have hgq : ∀ q, 0 < q → q < new0.length →
          new0.getD q 0 = (a :: b :: t).getD q 0 := by
        intro q hq hql
        rw [hlen0] at hql
        obtain ⟨q', rfl⟩ : ∃ q', q = q' + 1 := ⟨q - 1, by omega⟩
        rw [hnew0]
        simp only [List.getD_cons_succ]
        exact getD_dropLast (b :: t) q' 0 (by omega)
      have hkq : ∀ q, 0 < q → q < new0.length →
          hKey values new0 q = hKey values (a :: b :: t) q := by
        intro q hq hql
        unfold hKey
        rw [hgq q hq hql]
      have hpre1 : HeapifyPre1 cmp values new0 0 := by
        intro p hp hpl hpne
        have hpar0 : 0 < (p - 1) / 2 := by omega
        rw [hkq p hp hpl, hkq ((p - 1) / 2) hpar0 (by omega)]
        have hlt : p < (a :: b :: t).length := by
          rw [hlen0] at hpl
          simp at hpl ⊢
          omega
        exact hmin p hp hlt
      have hpre2 : HeapifyPre2 cmp values new0 0 := by
        intro h0
        omega
      obtain ⟨h3, heq3, hperm3, hmin3⟩ := heapifyF_correct cmp hc values
        ((b :: t).length + 1) new0 0 hpre1 hpre2 (by omega) (by omega)
      refine ⟨h3, ?_, ?_, hmin3⟩
      · have hcomp : popHeapF cmp values (a :: b :: t)
            = some (a, h3) := by
          simp only [popHeapF, List.isEmpty_cons, Bool.false_eq_true, if_false]
          rw [← hnew0]
          have hfuel : (b :: t).length + 1 = t.length + 1 + 1 := by simp
          rw [hfuel] at heq3
          simp only [List.length_cons]
          rw [heq3]
        rw [hcomp]
        rfl
      · have hp2 : List.Perm new0 (b :: t) := by
          rw [hnew0]
          conv_rhs => rw [← dropLast_append_getLastD (b :: t) 0 hrne]
          exact (List.perm_append_singleton _ _).symm
        exact ((hperm3.trans hp2).cons a)

/- ### The merge loop -/

/-- The output order of the merge: by cmp on the keys. -/
def lineLe (cmp : Nat → Nat → Int) (a b : LINE) : Prop := cmp a.key b.key ≤ 0

theorem lineLe_trans (cmp : Nat → Nat → Int) (hc : IsKeyCmp cmp) (a b c : LINE)
    (h1 : lineLe cmp a b) (h2 : lineLe cmp b c) : lineLe cmp a c :=
  hc.trans _ _ _ h1 h2

/-- The lines still to be emitted: for every live branch, its buffered
line followed by the unread remainder of its run. -/
def liveList (st : MergeSt) : List LINE :=
  st.heap.flatMap (fun b => valAt st.values b :: st.runs.getD b [])

/-- Invariant of the merge loop: branch arrays have length k, the heap
holds distinct branches below k and is a min-heap on the buffered keys,
each live branch's buffered line + run is sorted, every line already
written out compares ≤ every live buffered line, and the output is
sorted. -/
def MergeInv (cmp : Nat → Nat → Int) (k : Nat) (st : MergeSt) : Prop :=
  st.values.length = k ∧ st.runs.length = k ∧
  st.heap.Nodup ∧ (∀ b ∈ st.heap, b < k) ∧
  MinHeapP cmp st.values st.heap ∧
  (∀ b ∈ st.heap, List.Pairwise (lineLe cmp) (valAt st.values b :: st.runs.getD b [])) ∧
  (∀ x ∈ st.out, ∀ b ∈ st.heap, lineLe cmp x (valAt st.values b)) ∧
  List.Pairwise (lineLe cmp) st.out

theorem mergeLoopF_correct (cmp : Nat → Nat → Int) (hc : IsKeyCmp cmp) (k : Nat) :
    ∀ fuel st, MergeInv cmp k st → (liveList st).length < fuel →
      ∃ out, mergeLoopF cmp fuel st = some out ∧
        List.Perm out (st.out ++ liveList st) ∧
        List.Pairwise (lineLe cmp) out := by
  intro fuel
  induction fuel with
  | zero =>
    intro st _ hl
    omega
  | succ fuel ih =>
    intro st hinv hfl
    obtain ⟨hvl, hrl, hnd, hmem, hmin, hsorted, hdom, hout⟩ := hinv
    by_cases hturn : st.heap = []
    · refine ⟨st.out, ?_, ?_, hout⟩
      · simp only [mergeLoopF, hturn, List.isEmpty_nil, if_true]
      · unfold liveList
        rw [hturn]
        simp
    · have hemp : st.heap.isEmpty = false := by
        simp [List.isEmpty_iff, hturn]
      have hlpos : 0 < st.heap.length := List.length_pos.mpr hturn
      obtain ⟨h2, hpop, hpperm, hpmin⟩ :=
        popHeapF_correct cmp hc st.values st.heap hturn hmin
      have hAmem : st.heap.getD 0 0 ∈ st.heap := getD_mem_of_lt st.heap 0 0 hlpos
      have hAk : st.heap.getD 0 0 < k := hmem _ hAmem
      have hnd2 : (st.heap.getD 0 0 :: h2).Nodup := hpperm.nodup_iff.mpr hnd
      have hAnotin : st.heap.getD 0 0 ∉ h2 := (List.nodup_cons.mp hnd2).1
      have hh2nd : h2.Nodup := (List.nodup_cons.mp hnd2).2
      have hh2sub : ∀ b ∈ h2, b ∈ st.heap := fun b hb =>
        hpperm.mem_iff.mp (List.mem_cons_of_mem _ hb)
      have hroot : ∀ b ∈ st.heap,
          lineLe cmp (valAt st.values (st.heap.getD 0 0)) (valAt st.values b) :=
        fun b hb => root_min_mem cmp hc st.values st.heap hmin b hb
      have houtsorted : List.Pairwise (lineLe cmp)
          (st.out ++ [valAt st.values (st.heap.getD 0 0)]) := by
        rw [List.pairwise_append]
        refine ⟨hout, by simp, ?_⟩
        intro x hx y hy
        rw [List.mem_singleton] at hy
        subst hy
        exact hdom x hx _ hAmem
      cases hrun : st.runs.getD (st.heap.getD 0 0) [] with
      | nil =>
        have hstep : mergeLoopF cmp (fuel + 1) st
            = mergeLoopF cmp fuel
              { st with heap := h2,
                        out := st.out ++ [valAt st.values (st.heap.getD 0 0)] } := by
          simp only [mergeLoopF, hemp, Bool.false_eq_true, if_false]
          rw [hpop]
          dsimp only
          rw [hrun]
        have hinv' : MergeInv cmp k
            { st with heap := h2,
                      out := st.out ++ [valAt st.values (st.heap.getD 0 0)] } := by
          refine ⟨hvl, hrl, hh2nd, ?_, hpmin, ?_, ?_, houtsorted⟩
          · exact fun b hb => hmem b (hh2sub b hb)
          · exact fun b hb => hsorted b (hh2sub b hb)
          · intro x hx b hb
            rcases List.mem_append.mp hx with hx1 | hx1
            · exact hdom x hx1 b (hh2sub b hb)
            · rw [List.mem_singleton] at hx1
              subst hx1
              exact hroot b (hh2sub b hb)
        have hlive : List.Perm (liveList st)
            (valAt st.values (st.heap.getD 0 0) ::
              liveList { st with heap := h2, out := st.out ++ [valAt st.values (st.heap.getD 0 0)] }) := by
          unfold liveList
          have h1 := flatMap_perm
            (fun b => valAt st.values b :: st.runs.getD b []) hpperm.symm
          rw [List.flatMap_cons, hrun] at h1
          simpa using h1
        have hlen' : (liveList { st with heap := h2, out := st.out ++ [valAt st.values (st.heap.getD 0 0)] }).length < fuel := by
          have := hlive.length_eq
          simp only [List.length_cons] at this
          omega
        obtain ⟨out, heq, hperm, hsor⟩ := ih _ hinv' hlen'
        refine ⟨out, by rw [hstep]; exact heq, ?_, hsor⟩
        refine hperm.trans ?_
        rw [List.append_assoc]
        exact List.Perm.append_left st.out (by simpa using hlive.symm)
      | cons x rest =>
        have hfA : valAt (st.values.set (st.heap.getD 0 0) x) (st.heap.getD 0 0) = x := by
          unfold valAt
          exact getD_set_self _ _ _ _ (by omega)
        have hfB : ∀ b, b ≠ st.heap.getD 0 0 →
            valAt (st.values.set (st.heap.getD 0 0) x) b = valAt st.values b := by
          intro b hb
          unfold valAt
          exact getD_set_ne _ _ _ _ _ (Ne.symm hb)
        have hrA : (st.runs.set (st.heap.getD 0 0) rest).getD (st.heap.getD 0 0) [] = rest :=
          getD_set_self _ _ _ _ (by omega)
        have hrB : ∀ b, b ≠ st.heap.getD 0 0 →
            (st.runs.set (st.heap.getD 0 0) rest).getD b [] = st.runs.getD b [] := by
          intro b hb
          exact getD_set_ne _ _ _ _ _ (Ne.symm hb)
        have hminv' : MinHeapP cmp (st.values.set (st.heap.getD 0 0) x) h2 :=
          MinHeapP_congr cmp st.values _ h2
            (fun b hb => hfB b (fun hcon => hAnotin (hcon ▸ hb))) hpmin
        obtain ⟨h3, hpush, hpushperm, hpushmin⟩ :=
          pushHeapF_correct cmp hc _ h2 (st.heap.getD 0 0) hminv'
        have hsortA : List.Pairwise (lineLe cmp)
            (valAt st.values (st.heap.getD 0 0) :: x :: rest) := by
          have := hsorted _ hAmem
          rwa [hrun] at this
        have hvx : lineLe cmp (valAt st.values (st.heap.getD 0 0)) x :=
          (List.pairwise_cons.mp hsortA).1 x (List.mem_cons_self x rest)
        have hstep : mergeLoopF cmp (fuel + 1) st
            = mergeLoopF cmp fuel
              { values := st.values.set (st.heap.getD 0 0) x,
                runs := st.runs.set (st.heap.getD 0 0) rest, heap := h3,
                out := st.out ++ [valAt st.values (st.heap.getD 0 0)] } := by
          simp only [mergeLoopF, hemp, Bool.false_eq_true, if_false]
          rw [hpop]
          dsimp only
          rw [hrun]
          dsimp only
          rw [hpush]
        have hmem3 : ∀ b ∈ h3, b ∈ h2 ∨ b = st.heap.getD 0 0 := by
          intro b hb
          have := hpushperm.mem_iff.mp hb
          rcases List.mem_append.mp this with hb1 | hb1
          · exact Or.inl hb1
          · rw [List.mem_singleton] at hb1
            exact Or.inr hb1
        have hinv' : MergeInv cmp k
            { values := st.values.set (st.heap.getD 0 0) x,
              runs := st.runs.set (st.heap.getD 0 0) rest, heap := h3,
              out := st.out ++ [valAt st.values (st.heap.getD 0 0)] } := by
          refine ⟨by simpa using hvl, by simpa using hrl, ?_, ?_, hpushmin, ?_, ?_,
            houtsorted⟩
          · refine hpushperm.nodup_iff.mpr ?_
            exact (List.perm_append_singleton _ _).nodup_iff.mpr hnd2
          · intro b hb
            rcases hmem3 b hb with hb1 | hb1
            · exact hmem b (hh2sub b hb1)
            · subst hb1
              exact hAk
          · intro b hb
            rcases hmem3 b hb with hb1 | hb1
            · have hbne : b ≠ st.heap.getD 0 0 := fun hcon => hAnotin (hcon ▸ hb1)
              rw [hfB b hbne, hrB b hbne]
              exact hsorted b (hh2sub b hb1)
            · subst hb1
              rw [hfA, hrA]
              exact (List.pairwise_cons.mp hsortA).2
          · intro y hy b hb
            have hyv : lineLe cmp y (valAt st.values (st.heap.getD 0 0)) := by
              rcases List.mem_append.mp hy with hy1 | hy1
              · exact hdom y hy1 _ hAmem
              · rw [List.mem_singleton] at hy1
                subst hy1
                unfold lineLe
                have := hc.refl0 (valAt st.values (st.heap.getD 0 0)).key
                omega
            rcases hmem3 b hb with hb1 | hb1
            · have hbne : b ≠ st.heap.getD 0 0 := fun hcon => hAnotin (hcon ▸ hb1)
              rw [hfB b hbne]
              rcases List.mem_append.mp hy with hy1 | hy1
              · exact hdom y hy1 b (hh2sub b hb1)
              · rw [List.mem_singleton] at hy1
                subst hy1
                exact hroot b (hh2sub b hb1)
            · subst hb1
              rw [hfA]
              exact lineLe_trans cmp hc _ _ _ hyv hvx
        have hst'live : List.Perm
            (liveList { values := st.values.set (st.heap.getD 0 0) x,
                        runs := st.runs.set (st.heap.getD 0 0) rest, heap := h3,
                        out := st.out ++ [valAt st.values (st.heap.getD 0 0)] })
            ((h2.flatMap (fun b => valAt st.values b :: st.runs.getD b [])) ++
              (x :: rest)) := by
          unfold liveList
          have h1 := flatMap_perm
            (fun b => valAt (st.values.set (st.heap.getD 0 0) x) b ::
              (st.runs.set (st.heap.getD 0 0) rest).getD b []) hpushperm
          rw [List.flatMap_append] at h1
          rw [flatMap_congr_mem _
            (fun b => valAt st.values b :: st.runs.getD b []) h2 ?hagree] at h1
          case hagree =>
            intro b hb
            have hbne : b ≠ st.heap.getD 0 0 := fun hcon => hAnotin (hcon ▸ hb)
            rw [hfB b hbne, hrB b hbne]
          simp only [List.flatMap_cons, List.flatMap_nil, List.append_nil] at h1
          rw [hfA, hrA] at h1
          exact h1
        have hstlive : List.Perm (liveList st)
            ((valAt st.values (st.heap.getD 0 0) :: x :: rest) ++
              (h2.flatMap (fun b => valAt st.values b :: st.runs.getD b []))) := by
          unfold liveList
          have h1 := flatMap_perm
            (fun b => valAt st.values b :: st.runs.getD b []) hpperm.symm
          rw [List.flatMap_cons, hrun] at h1
          simpa using h1
        have hlive : List.Perm (liveList st)
            (valAt st.values (st.heap.getD 0 0) ::
              liveList { values := st.values.set (st.heap.getD 0 0) x,
                         runs := st.runs.set (st.heap.getD 0 0) rest, heap := h3,
                         out := st.out ++ [valAt st.values (st.heap.getD 0 0)] }) := by
          refine hstlive.trans ?_
          refine List.Perm.trans ?_ ((hst'live.symm).cons _)
          exact (List.perm_append_comm).cons _
        have hlen' : (liveList { values := st.values.set (st.heap.getD 0 0) x,
                                 runs := st.runs.set (st.heap.getD 0 0) rest, heap := h3,
                                 out := st.out ++ [valAt st.values (st.heap.getD 0 0)] }).length < fuel := by
          have := hlive.length_eq
          simp only [List.length_cons] at this
          omega
        obtain ⟨out, heq, hperm, hsor⟩ := ih _ hinv' hlen'
        refine ⟨out, by rw [hstep]; exact heq, ?_, hsor⟩
        refine hperm.trans ?_
        rw [List.append_assoc]
        exact List.Perm.append_left st.out (by simpa using hlive.symm)

/- ### Cutting the index into runs -/

theorem chunkSizes_mod_zero (N k : Nat) (h : N % k = 0) :
    chunkSizes N k = List.replicate k (N / k) := by
  unfold chunkSizes
  rw [h]
  have h1 : ∀ j : Nat, (N / k + if 0 > j then 1 else 0) = N / k := by
    intro j
    have : ¬ 0 > j := by omega
    rw [if_neg this]
    omega
  simp only [h1]
  rw [List.map_const']
  simp

theorem splitChunks_length : ∀ (ss : List Nat) (l : List LINE),
    (splitChunks l ss).length = ss.length
  | [], _ => rfl
  | s :: ss, l => by
    simp only [splitChunks, List.length_cons]
    rw [splitChunks_length ss (l.drop s)]

theorem splitChunks_flatten : ∀ (ss : List Nat) (l : List LINE),
    (splitChunks l ss).flatten = l.take ss.sum
  | [], l => by simp [splitChunks]
  | s :: ss, l => by
    simp only [splitChunks, List.flatten_cons, List.sum_cons]
    rw [splitChunks_flatten ss (l.drop s), List.take_add]

theorem splitChunks_ne_nil : ∀ (ss : List Nat) (l : List LINE), (∀ s ∈ ss, 1 ≤ s) →
    ss.sum ≤ l.length → ∀ c ∈ splitChunks l ss, c ≠ []
  | [], _, _, _ => by simp [splitChunks]
  | s :: ss, l, hs, hsum => by
    intro c hc
    simp only [splitChunks, List.mem_cons] at hc
    rcases hc with rfl | hc
    · have h1 : 1 ≤ s := hs s (List.mem_cons_self s ss)
      have h2 : s + ss.sum ≤ l.length := by simpa using hsum
      have h3 : 0 < (l.take s).length := by
        rw [List.length_take]
        omega
      exact List.ne_nil_of_length_pos h3
    · refine splitChunks_ne_nil ss (l.drop s)
        (fun t ht => hs t (List.mem_cons_of_mem s ht)) ?_ c hc
      rw [List.length_drop]
      have h2 : s + ss.sum ≤ l.length := by simpa using hsum
      omega

theorem flatten_map_perm (cmp : Nat → Nat → Int) : ∀ l : List (List LINE),
    List.Perm ((l.map (sortChunk cmp)).flatten) l.flatten
  | [] => List.Perm.refl []
  | c :: t => by
    simp only [List.map_cons, List.flatten_cons]
    exact (List.perm_insertionSort _ c).append (flatten_map_perm cmp t)

/- ### Filling the heap -/

theorem initFold_inv (cmp : Nat → Nat → Int) (hc : IsKeyCmp cmp)
    (chunks : List (List LINE)) (k : Nat) (hk : chunks.length = k)
    (hne : ∀ c ∈ chunks, c ≠ []) :
    ∀ j, j ≤ k →
      ∃ vals runs h,
        (List.range j).foldl (initStep cmp chunks)
          (List.replicate k ⟨0, 0⟩, List.replicate k [], some []) = (vals, runs, some h) ∧
        vals.length = k ∧ runs.length = k ∧
        List.Perm h (List.range j) ∧ MinHeapP cmp vals h ∧
        ∀ b, b < j → valAt vals b :: runs.getD b [] = chunks.getD b [] := by
  intro j
  induction j with
  | zero =>
    intro _
    refine ⟨List.replicate k ⟨0, 0⟩, List.replicate k [], [], rfl, by simp, by simp,
      List.Perm.refl [], ?_, ?_⟩
    · intro p _ hpl
      simp at hpl
    · intro b hb
      omega
  | succ j ihj =>
    intro hj
    obtain ⟨vals, runs, h, heq, hvl, hrl, hperm, hmin, hprev⟩ := ihj (by omega)
    have hjk : j < k := by omega
    have hcne : chunks.getD j [] ≠ [] := by
      apply hne
      rw [← hk] at hjk
      exact getD_mem_of_lt chunks j [] hjk
    obtain ⟨x, rest, hcons⟩ := List.exists_cons_of_ne_nil hcne
    have hstep : initStep cmp chunks (vals, runs, some h) j
        = (vals.set j x, runs.set j rest, pushHeapF cmp (vals.set j x) h j) := by
      unfold initStep
      dsimp only
      rw [hcons]
    have hminset : MinHeapP cmp (vals.set j x) h := by
      refine MinHeapP_congr cmp vals _ h ?_ hmin
      intro b hb
      have hbj : b < j := List.mem_range.mp (hperm.mem_iff.mp hb)
      unfold valAt
      exact getD_set_ne _ _ _ _ _ (by omega)
    obtain ⟨h3, hpush, hpushperm, hpushmin⟩ :=
      pushHeapF_correct cmp hc (vals.set j x) h j hminset
    refine ⟨vals.set j x, runs.set j rest, h3, ?_, by simpa using hvl,
      by simpa using hrl, ?_, hpushmin, ?_⟩
    · rw [List.range_succ, List.foldl_append, heq]
      simp only [List.foldl_cons, List.foldl_nil]
      rw [hstep, hpush]
    · refine hpushperm.trans ?_
      rw [List.range_succ]
      exact hperm.append_right [j]
    · intro b hb
      by_cases hbj : b = j
      · subst hbj
        unfold valAt
        rw [getD_set_self _ _ _ _ (by omega), getD_set_self _ _ _ _ (by omega), hcons]
      · have hblt : b < j := by omega
        unfold valAt
        rw [getD_set_ne _ _ _ _ _ (by omega), getD_set_ne _ _ _ _ _ (by omega)]
        exact hprev b hblt

/- ### sortIndexer top-level -/

theorem sortIndexer_some_sorted (cmp : Nat → Nat → Int) (hc : IsKeyCmp cmp)
    (entries : List LINE) (hne : entries ≠ [])
    (hmod : entries.length %
      ((entries.length + MAX_FILE_LINES - 1) / MAX_FILE_LINES) = 0) :
    ∃ out, sortIndexer cmp entries = some out ∧ List.Perm out entries ∧
      List.Pairwise (lineLe cmp) out := by
  set N := entries.length with hN
  set k := (N + MAX_FILE_LINES - 1) / MAX_FILE_LINES with hk
  have hN1 : 1 ≤ N := by
    rw [hN]
    exact List.length_pos.mpr hne
  have hM : 0 < MAX_FILE_LINES := by
    unfold MAX_FILE_LINES
    omega
  have hk1 : 1 ≤ k := by
    rw [hk]
    refine (Nat.le_div_iff_mul_le hM).mpr ?_
    omega
  have hkN : k ≤ N := by
    have h2 : (N + MAX_FILE_LINES - 1) / MAX_FILE_LINES < N + 1 := by
      refine (Nat.div_lt_iff_lt_mul hM).mpr ?_
      have h3 : N * 1 ≤ N * MAX_FILE_LINES := Nat.mul_le_mul_left N (by omega)
      have h4 : (N + 1) * MAX_FILE_LINES = N * MAX_FILE_LINES + MAX_FILE_LINES := by
        ring
      omega
    omega
  have hsize1 : 1 ≤ N / k := (Nat.one_le_div_iff (by omega)).mpr hkN
  have hsum : (List.replicate k (N / k)).sum = N := by
    rw [List.sum_replicate, smul_eq_mul]
    have := Nat.div_add_mod N k
    omega
  set chunks0 := splitChunks entries (chunkSizes N k) with hch0
  have hchre : chunkSizes N k = List.replicate k (N / k) := chunkSizes_mod_zero N k hmod
  have hch0len : chunks0.length = k := by
    rw [hch0, hchre, splitChunks_length]
    simp
  have hflat0 : chunks0.flatten = entries := by
    rw [hch0, hchre, splitChunks_flatten, hsum, hN]
    exact List.take_length entries
  have hne0 : ∀ c ∈ chunks0, c ≠ [] := by
    rw [hch0, hchre]
    refine splitChunks_ne_nil _ _ ?_ ?_
    · intro s hs
      rw [List.eq_of_mem_replicate hs]
      exact hsize1
    · rw [hsum, hN]
  set chunks := chunks0.map (sortChunk cmp) with hchm
  have hchlen : chunks.length = k := by
    rw [hchm]
    simpa using hch0len
  have hchne : ∀ c ∈ chunks, c ≠ [] := by
    intro c hc
    rw [hchm] at hc
    obtain ⟨c0, hc0, rfl⟩ := List.mem_map.mp hc
    intro hcon
    have hp := List.perm_insertionSort (fun a b : LINE => cmp a.key b.key ≤ 0) c0
    have : c0 = [] := by
      have hl := hp.length_eq
      rw [show sortChunk cmp c0 = List.insertionSort (fun a b : LINE => cmp a.key b.key ≤ 0) c0 from rfl] at hcon
      rw [hcon] at hl
      exact List.eq_nil_of_length_eq_zero hl.symm
    exact hne0 c0 hc0 this
  have hchsorted : ∀ c ∈ chunks, List.Pairwise (lineLe cmp) c := by
    intro cc hcc
    rw [hchm] at hcc
    obtain ⟨c0, _, rfl⟩ := List.mem_map.mp hcc
    haveI : IsTotal LINE (fun a b => cmp a.key b.key ≤ 0) :=
      ⟨fun a b => hc.total a.key b.key⟩
    haveI : IsTrans LINE (fun a b => cmp a.key b.key ≤ 0) :=
      ⟨fun a b c h1 h2 => hc.trans _ _ _ h1 h2⟩
    exact List.sorted_insertionSort (fun a b : LINE => cmp a.key b.key ≤ 0) c0
  have hchperm : List.Perm chunks.flatten entries := by
    rw [hchm, ← hflat0]
    exact flatten_map_perm cmp chunks0
  obtain ⟨vals, runs, h0, heq0, hvl0, hrl0, hperm0, hmin0, hcontent⟩ :=
    initFold_inv cmp hc chunks k hchlen hchne k (le_refl k)
  have hinv : MergeInv cmp k { values := vals, runs := runs, heap := h0, out := [] } := by
    refine ⟨hvl0, hrl0, hperm0.nodup_iff.mpr (List.nodup_range k), ?_, hmin0, ?_, ?_, ?_⟩
    · intro b hb
      exact List.mem_range.mp (hperm0.mem_iff.mp hb)
    · intro b hb
      have hbk : b < k := List.mem_range.mp (hperm0.mem_iff.mp hb)
      have := hcontent b hbk
      dsimp only
      rw [this]
      refine hchsorted _ ?_
      rw [← hchlen] at hbk
      exact getD_mem_of_lt chunks b [] hbk
    · intro x hx
      simp at hx
    · simp
  have hlive0 : List.Perm
      (liveList { values := vals, runs := runs, heap := h0, out := [] }) entries := by
    unfold liveList
    dsimp only
    have h1 := flatMap_perm (fun b => valAt vals b :: runs.getD b []) hperm0
    have h2 : (List.range k).flatMap (fun b => valAt vals b :: runs.getD b [])
        = (List.range k).flatMap (fun b => chunks.getD b []) :=
      flatMap_congr_mem _ _ _ (fun b hb => hcontent b (List.mem_range.mp hb))
    have h3 : (List.range k).flatMap (fun b => chunks.getD b []) = chunks.flatten := by
      rw [List.flatMap_def, ← hchlen, map_getD_range ([] : List LINE) chunks]
    rw [h2, h3] at h1
    exact h1.trans hchperm
  have hlen : (liveList { values := vals, runs := runs, heap := h0, out := [] }).length
      < N + 1 := by
    rw [hlive0.length_eq, hN]
    omega
  obtain ⟨out, hmerge, hpermout, hsortedout⟩ :=
    mergeLoopF_correct cmp hc k (N + 1)
      { values := vals, runs := runs, heap := h0, out := [] } hinv hlen
  have hki : ¬ k = 0 := by omega
  refine ⟨out, ?_, ?_, hsortedout⟩
  · simp only [sortIndexer]
    rw [← hN, ← hk, if_neg hki, if_neg (by omega : ¬ N % k ≠ 0), ← hch0, ← hchm, heq0]
    dsimp only
    exact hmerge
  · exact hpermout.trans hlive0

/-- Claim C5 (amended): for every consistent comparator and every
non-empty indexer whose entry count N is divisible by the run count
k = ⌈N / MAX_FILE_LINES⌉ (always true for 1 ≤ N ≤ MAX_FILE_LINES, where
k = 1), sortIndexer succeeds and the index file holds the same N entries
with, for all slots i < j, key_cmp(key_at(i), key_at(j)) ≤ 0. With N = 0
the run count k is 0 and sortIndexer divides by zero; with N % k ≠ 0 it
overflows the run buffer. -/
theorem C5_sortIndexer_sorts (cmp : Nat → Nat → Int) (hc : IsKeyCmp cmp)
    (entries : List LINE) (hne : entries ≠ [])
    (hmod : entries.length %
      ((entries.length + MAX_FILE_LINES - 1) / MAX_FILE_LINES) = 0) :
    ∃ out, sortIndexer cmp entries = some out ∧ List.Perm out entries ∧
      ∀ i j : Nat, i < j → j < out.length → cmp (keyAt out i) (keyAt out j) ≤ 0 := by
  obtain ⟨out, h1, h2, h3⟩ := sortIndexer_some_sorted cmp hc entries hne hmod
  refine ⟨out, h1, h2, ?_⟩
  intro i j hij hj
  have hi : i < out.length := by omega
  have h4 := List.pairwise_iff_getElem.mp h3 i j hi hj hij
  unfold keyAt
  rw [List.getD_eq_getElem _ _ hi, List.getD_eq_getElem _ _ hj]
  exact h4

/-- Counterexample to the unrestricted claim: an indexer with zero
entries makes sortIndexer compute k = 0 and divide by zero in
`i->elem_no / k` (indexer.c line 279); no sorted index is produced. -/
theorem C5_sort_empty_crashes : sortIndexer directCmp [] = none := rfl

/-- Witness for C5 at a concrete five-entry indexer. -/
theorem C5_sortIndexer_sorts_witness :
    ∃ out, sortIndexer directCmp [⟨3, 30⟩, ⟨1, 10⟩, ⟨4, 40⟩, ⟨1, 11⟩, ⟨2, 20⟩]
        = some out ∧
      List.Perm out [⟨3, 30⟩, ⟨1, 10⟩, ⟨4, 40⟩, ⟨1, 11⟩, ⟨2, 20⟩] ∧
      ∀ i j : Nat, i < j → j < out.length →
        directCmp (keyAt out i) (keyAt out j) ≤ 0 :=
  C5_sortIndexer_sorts directCmp directCmp_isKeyCmp _ (by decide) (by decide)


end GithubManager
